import Mathlib

/-!
Verification of the content-enhancement and scoring core of the
smart-resume-generator repository: spelling correction, weak-word removal,
ATS scoring, keyword extraction, template selection and the document
exporters, shallowly embedded from `text_enhancer.py`, `resume_export.py`
and `resume_templates.py`.

Modelling conventions, fixed once here:
* Python strings are modelled as `List Char` (`Str`).  The regex word
  character class `\w`, case folding (`re.IGNORECASE`, `str.lower`,
  `str.upper`, `str.isupper`) and whitespace are modelled at the ASCII
  level, which covers the repository's entire lexicon data.
* `int(x)` on the non-negative quotients appearing in the scorer is
  modelled by truncated natural division (Python's float division of the
  small integers involved rounds to the same floor value).
* `random.choice(lst)` in `enhance_text` is modelled by an explicit
  `pick` function passed as an argument, making the dependence on the
  shared pseudo-random generator state visible.
* File writing is not modelled; exporters are modelled as the functions
  producing the document content / element streams they write.
-/

set_option maxRecDepth 16384

/-- Python strings, as lists of characters. -/
abbrev Str := List Char

/-- Lower-cased code point of a character (ASCII case folding, as used by
`re.IGNORECASE` and `str.lower` on the repository's ASCII lexicon data). -/
def lowC (c : Char) : Nat :=
  if 65 ≤ c.toNat ∧ c.toNat ≤ 90 then c.toNat + 32 else c.toNat

/-- Is the (already lower-cased) code point a regex word character `\w`
(ASCII: digit, letter or underscore)? -/
def wordN (n : Nat) : Bool :=
  (48 ≤ n && n ≤ 57) || (97 ≤ n && n ≤ 122) || (n == 95)

/-- Is the character a regex word character `\w` (ASCII model)? -/
def wordC (c : Char) : Bool := wordN (lowC c)

/-- ASCII lower-casing of a character (`str.lower`). -/
def lowerC (c : Char) : Char :=
  if 65 ≤ c.toNat ∧ c.toNat ≤ 90 then Char.ofNat (c.toNat + 32) else c

/-- ASCII upper-casing of a character (`str.upper`). -/
def upperC (c : Char) : Char :=
  if 97 ≤ c.toNat ∧ c.toNat ≤ 122 then Char.ofNat (c.toNat - 32) else c

/-- Python `str.isupper()` on a single character (ASCII model). -/
def isUpperCh (c : Char) : Bool := (65 ≤ c.toNat && c.toNat ≤ 90)

/-- Python `str.lower()` (ASCII model). -/
def lowerStr (s : Str) : Str := s.map lowerC

/-- Python `str.capitalize()`: first character upper-cased, the rest
lower-cased. -/
def capStr : Str → Str
  | [] => []
  | c :: t => upperC c :: t.map lowerC

/-- Python whitespace (ASCII): space, tab, newline, carriage return,
vertical tab, form feed. -/
def isWs (c : Char) : Bool :=
  c == ' ' || c == '\t' || c == '\n' || c == '\r' || c.toNat == 11 || c.toNat == 12

/-- Python `str.split()` (no separator): split on whitespace runs,
dropping empty pieces.  `acc` accumulates the current word reversed. -/
def splitWsAux : Str → Str → List Str
  | acc, [] => if acc.isEmpty then [] else [acc.reverse]
  | acc, c :: cs =>
    if isWs c then
      if acc.isEmpty then splitWsAux [] cs else acc.reverse :: splitWsAux [] cs
    else splitWsAux (c :: acc) cs

/-- Python `str.split()` with no argument. -/
def splitWs (s : Str) : List Str := splitWsAux [] s

/-- Python `str.split(sep)` for a single-character separator
(keeps empty pieces). -/
def splitOn (sep : Char) : Str → List Str
  | [] => [[]]
  | c :: cs =>
    let r := splitOn sep cs
    if c == sep then [] :: r
    else match r with
      | [] => [[c]]
      | h :: t => (c :: h) :: t

/-- Case-insensitive prefix test: does `s` start with `pat`
(ASCII case folding)? -/
def startsCI : Str → Str → Bool
  | [], _ => true
  | _ :: _, [] => false
  | a :: as, b :: bs => (lowC a == lowC b) && startsCI as bs

/-- Exact prefix test. -/
def startsL : Str → Str → Bool
  | [], _ => true
  | _ :: _, [] => false
  | a :: as, b :: bs => (a == b) && startsL as bs

/-- Exact suffix test (`str.endswith`). -/
def endsL (pat s : Str) : Bool := startsL pat.reverse s.reverse

/-- Exact (case-sensitive) substring test (Python `in`). -/
def containsSub (needle : Str) : Str → Bool
  | [] => startsL needle []
  | c :: cs => startsL needle (c :: cs) || containsSub needle cs

/-- Python `str.strip()` (trim ASCII whitespace at both ends). -/
def stripWs (s : Str) : Str :=
  ((s.dropWhile isWs).reverse.dropWhile isWs).reverse

/-- Python `str.strip(chars)` for a character set at both ends. -/
def stripSet (chars : List Char) (s : Str) : Str :=
  ((s.dropWhile (chars.contains ·)).reverse.dropWhile (chars.contains ·)).reverse

/-- Python `str.rstrip(chars)`. -/
def rstripSet (chars : List Char) (s : Str) : Str :=
  (s.reverse.dropWhile (chars.contains ·)).reverse

/-- The trailing `\b` of a pattern match: after the `pat.length` matched
characters, the boundary holds iff the word-ness of the last matched
character (CI-equal to `pat`'s last) differs from that of the following
character (end of string counts as non-word). -/
def bAft (pat s : Str) : Bool :=
  match s.drop pat.length with
  | [] => wordC (pat.getLastD ' ')
  | d :: _ => wordC (pat.getLastD ' ') != wordC d

/-- Does `re.match(r"\b<pat>\b", ...)` succeed at the head of `s`, where
`pw` is the word-ness of the character just before `s` (false at the
start of the text)?  The leading `\b` holds iff `pw` differs from the
word-ness of the first pattern character. -/
def hitHead (pat : Str) (pw : Bool) (s : Str) : Bool :=
  !pat.isEmpty && (pw != wordC (pat.headD ' ')) && startsCI pat s && bAft pat s

/-- `re.search(r"\b<pat>\b", s[from current position], re.IGNORECASE)`
succeeds somewhere, scanning with running previous-character word-ness
`pw`. -/
def occG (pat : Str) (pw : Bool) : Str → Bool
  | [] => false
  | c :: cs => hitHead pat pw (c :: cs) || occG pat (wordC c) cs

/-- `re.search(r"\b" + re.escape(k) + r"\b", s, re.IGNORECASE)` as a
whole-text test.  For the empty pattern `\b\b` matches at any word
boundary, which exists iff the text has a word character. -/
def searchWB (k : Str) (s : Str) : Bool :=
  if k.isEmpty then s.any wordC else occG k false s

/-! ## ATS scorer (`text_enhancer.calculate_ats_score`, lines 397-485) -/

/-- Result of `calculate_ats_score`; `keyword_match = none` models the
literal `"N/A"`. -/
structure ScoreR where
  overall : Nat
  keyword_match : Option Nat
  format : Nat
  length : Nat
  suggestions : List String
  deriving Repr, DecidableEq

/-- Section-header terms searched for by the format check (line 438). -/
def ATS_SECTIONS : List Str :=
  ["experience".data, "education".data, "skills".data, "summary".data,
   "objective".data, "work".data, "contact".data]

/-- Length sub-score (lines 417-427): word count below 300 scores 60,
above 1000 scores 70, otherwise 100. -/
def ats_length_score (text : Str) : Nat :=
  if (splitWs text).length < 300 then 60
  else if (splitWs text).length > 1000 then 70
  else 100

/-- Number of section-header terms found as case-insensitive whole words
(lines 439-442). -/
def ats_found_sections (text : Str) : Nat :=
  (ATS_SECTIONS.filter (fun sec => occG sec false text)).length

/-- Count of bullet markers: `len(re.findall(r'•|-|\*', text))`
(line 449). -/
def ats_bullets (text : Str) : Nat :=
  (text.filter (fun c => c == '•' || c == '-' || c == '*')).length

/-- Format score before clamping (lines 430-452): start from 100,
deduct 10 when no `@` is present, 20 when fewer than 3 section headers
are found, 10 when fewer than 5 bullet markers appear. -/
def ats_format_raw (text : Str) : Int :=
  100 - (if text.count '@' = 0 then (10 : Int) else 0)
      - (if ats_found_sections text < 3 then (20 : Int) else 0)
      - (if ats_bullets text < 5 then (10 : Int) else 0)

/-- Format sub-score: `max(0, format_score)` (line 454). -/
def ats_format_score (text : Str) : Nat := (max 0 (ats_format_raw text)).toNat

/-- Number of supplied keywords found as case-insensitive whole words
(lines 458-461). -/
def ats_matched_keywords (text : Str) (job_keywords : List Str) : Nat :=
  (job_keywords.filter (fun k => searchWB k text)).length

/-- Keyword sub-score `int((matched / len(keywords)) * 100)` (line 463);
the quotient is a floor on the non-negative values involved. -/
def ats_keyword_score (text : Str) (job_keywords : List Str) : Nat :=
  ats_matched_keywords text job_keywords * 100 / job_keywords.length

/-- The suggestions list, assembled in the source's append order. -/
def ats_suggestions (text : Str) (job_keywords : List Str)
    (overall : Nat) : List String :=
  (if (splitWs text).length < 300 then ["Resume is too short. Aim for 400-800 words."]
   else if (splitWs text).length > 1000 then ["Resume is too long. Aim for 400-800 words."]
   else [])
  ++ (if text.count '@' = 0 then ["No email address detected."] else [])
  ++ (if ats_found_sections text < 3 then
        ["Not enough clear section headers detected. Include clear sections for Experience, Education, Skills, etc."]
      else [])
  ++ (if ats_bullets text < 5 then
        ["Not enough bullet points. Use bullets to highlight achievements and responsibilities."]
      else [])
  ++ (if ¬ job_keywords.isEmpty ∧ ats_keyword_score text job_keywords < 70 then
        ["Low keyword match with job description. Try including more relevant keywords."]
      else [])
  ++ (if overall < 70 then
        ["Overall ATS compatibility is low. Follow the suggestions to improve."]
      else if overall < 85 then
        ["Resume has moderate ATS compatibility. Make suggested improvements for better results."]
      else ["Resume has good ATS compatibility."])

/-- `calculate_ats_score(text, job_keywords)`; a `None` argument in
Python behaves identically to the empty list (both falsy), so keywords
are modelled as a plain list. -/
def calculate_ats_score (text : Str) (job_keywords : List Str) : ScoreR :=
  let fmt := ats_format_score text
  let len := ats_length_score text
  let km : Option Nat :=
    if job_keywords.isEmpty then none else some (ats_keyword_score text job_keywords)
  let overall : Nat :=
    match km with
    | some k => (fmt + len + k) / 3
    | none => (fmt + len) / 2
  { overall := overall
    keyword_match := km
    format := fmt
    length := len
    suggestions := ats_suggestions text job_keywords overall }

/-- C1: the ATS report's overall field is the floor mean of the numeric
sub-scores: with a non-empty keyword list, `(format + length +
keywordMatch) / 3`; with no keywords, `keyword_match` is the `"N/A"`
marker (`none`) and `overall = (format + length) / 2`. -/
theorem c1_ats_overall_is_mean (text : Str) (job_keywords : List Str) :
    ((calculate_ats_score text job_keywords).keyword_match = none ↔ job_keywords = []) ∧
    (calculate_ats_score text job_keywords).overall =
      (match (calculate_ats_score text job_keywords).keyword_match with
       | some k =>
           ((calculate_ats_score text job_keywords).format +
            (calculate_ats_score text job_keywords).length + k) / 3
       | none =>
           ((calculate_ats_score text job_keywords).format +
            (calculate_ats_score text job_keywords).length) / 2) := by
  cases job_keywords with
  | nil => exact ⟨by simp [calculate_ats_score], by simp [calculate_ats_score]⟩
  | cons k ks => exact ⟨by simp [calculate_ats_score], by simp [calculate_ats_score]⟩

/-- C10: the format sub-score always lies in `[60, 100]`: the three
deductions total at most 40, so the clamp `max(0, ...)` never changes
the value. -/
theorem c10_ats_format_bounds (text : Str) (job_keywords : List Str) :
    60 ≤ (calculate_ats_score text job_keywords).format ∧
    (calculate_ats_score text job_keywords).format ≤ 100 ∧
    ((calculate_ats_score text job_keywords).format : Int) = ats_format_raw text := by
  have h : (calculate_ats_score text job_keywords).format = ats_format_score text := by
    unfold calculate_ats_score; rfl
  rw [h]
  unfold ats_format_score ats_format_raw
  split_ifs <;> decide

/-! ## Template selection (`resume_templates.get_template`, lines 108-130) -/

/-- Python `str.lower()` on a `String` (ASCII model). -/
def asciiLower (s : String) : String := String.mk (s.data.map lowerC)

def MODERN_TEMPLATE : String :=
  "\n# \x7bname\x7d\n**\x7bjob_role\x7d** | \x7bemail\x7d | \x7bphone\x7d | \x7blocation\x7d\n\n## SUMMARY\n\x7bsummary\x7d\n\n## SKILLS\n\x7bskills\x7d\n\n## EXPERIENCE\n\x7bexperience\x7d\n\n## EDUCATION\n\x7beducation\x7d\n\n## CONTACT\nEmail: \x7bemail\x7d\nPhone: \x7bphone\x7d\nLocation: \x7blocation\x7d\n\x7blinks\x7d\n"

def CLASSIC_TEMPLATE : String :=
  "\n\x7bname\x7d\n====================\n\x7bjob_role\x7d\nContact: \x7bemail\x7d | \x7bphone\x7d | \x7blocation\x7d\n\nSUMMARY\n--------------------\n\x7bsummary\x7d\n\nSKILLS\n--------------------\n\x7bskills\x7d\n\nEXPERIENCE\n--------------------\n\x7bexperience\x7d\n\nEDUCATION\n--------------------\n\x7beducation\x7d\n\nCONTACT INFORMATION\n--------------------\nEmail: \x7bemail\x7d\nPhone: \x7bphone\x7d\nAddress: \x7blocation\x7d\n\x7blinks\x7d\n"

def MINIMALIST_TEMPLATE : String :=
  "\n# \x7bname\x7d\n\x7bjob_role\x7d | \x7blocation\x7d\n\n**About Me**\n\x7bsummary\x7d\n\n**Skills**\n\x7bskills\x7d\n\n**Experience**\n\x7bexperience\x7d\n\n**Education**\n\x7beducation\x7d\n\n**Contact**\n\x7bemail\x7d | \x7bphone\x7d\n\x7blinks\x7d\n"

def DARK_TEMPLATE : String :=
  "\n# \x7bname\x7d\n## \x7bjob_role\x7d\n*\x7blocation\x7d*\n\n### PROFESSIONAL SUMMARY\n\x7bsummary\x7d\n\n### TECHNICAL SKILLS\n\x7bskills\x7d\n\n### PROFESSIONAL EXPERIENCE\n\x7bexperience\x7d\n\n### EDUCATION\n\x7beducation\x7d\n\n### CONTACT INFORMATION\n- Email: \x7bemail\x7d\n- Phone: \x7bphone\x7d\n- Location: \x7blocation\x7d\n\x7blinks\x7d\n"

/-- `get_template(template_name, dark_mode)`: dark mode overrides unless
the lower-cased name is already "dark"; otherwise a case-insensitive
dictionary lookup with `MODERN_TEMPLATE` as the default (the dictionary
keys are distinct, so the lookup is rendered as an if-chain). -/
def get_template (template_name : String) (dark_mode : Bool) : String :=
  if dark_mode && asciiLower template_name != "dark" then DARK_TEMPLATE
  else if asciiLower template_name == "modern" then MODERN_TEMPLATE
  else if asciiLower template_name == "classic" then CLASSIC_TEMPLATE
  else if asciiLower template_name == "minimalist" then MINIMALIST_TEMPLATE
  else if asciiLower template_name == "dark" then DARK_TEMPLATE
  else MODERN_TEMPLATE

/-- C7: with dark mode on and a name other than the literal "dark" the
dark template is returned regardless of the name; otherwise the name is
looked up case-insensitively among modern, classic, minimalist and dark,
with any unrecognized name yielding the modern template. -/
theorem c7_get_template (name : String) (dark : Bool) :
    get_template name dark =
      if dark = true ∧ name ≠ "dark" then DARK_TEMPLATE
      else if asciiLower name = "modern" then MODERN_TEMPLATE
      else if asciiLower name = "classic" then CLASSIC_TEMPLATE
      else if asciiLower name = "minimalist" then MINIMALIST_TEMPLATE
      else if asciiLower name = "dark" then DARK_TEMPLATE
      else MODERN_TEMPLATE := by
  unfold get_template
  cases dark with
  | false => simp
  | true =>
    by_cases hl : asciiLower name = "dark"
    · have hd : asciiLower "dark" = "dark" := rfl
      by_cases hn : name = "dark" <;> simp [hl, hn, hd]
    · have hn : name ≠ "dark" := by
        intro h; rw [h] at hl; exact hl rfl
      simp [hl, hn]

/-! ## HTML export (`resume_export.save_as_html`, lines 47-169)

The exporter is modelled as the function producing the document string it
writes; the file write itself is not modelled.  `markdownAvailable`
models the `MARKDOWN_AVAILABLE` capability flag and `convert` the
`markdown.markdown` converter. -/

/-- The shared document head, up to and including the newline after
`<style>`. -/
def SHELL_HEAD : Str :=
  "<!DOCTYPE html>\n<html>\n<head>\n    <title>Resume</title>\n    <meta charset=\"UTF-8\">\n    <style>\n".data

/-- From after the style block to the body content. -/
def SHELL_MID : Str := "\n    </style>\n</head>\n<body>\n    ".data

/-- After the body content. -/
def SHELL_TAIL : Str := "\n</body>\n</html>".data

/-- The fixed document shell: head, a CSS block, the body content. -/
def html_shell (css body : Str) : Str :=
  SHELL_HEAD ++ css ++ SHELL_MID ++ body ++ SHELL_TAIL

/-- Dark-mode CSS variant (lines 85-114). -/
def DARK_CSS : Str :=
  "\n        body \x7b\n            font-family: \x27Segoe UI\x27, Arial, sans-serif;\n            line-height: 1.6;\n            padding: 40px;\n            max-width: 800px;\n            margin: 0 auto;\n            background-color: #121212;\n            color: #e0e0e0;\n        \x7d\n        h1, h2, h3 \x7b\n            color: #bb86fc;\n        \x7d\n        a \x7b\n            color: #03dac6;\n            text-decoration: none;\n        \x7d\n        a:hover \x7b\n            text-decoration: underline;\n        \x7d\n        hr \x7b\n            border: none;\n            border-top: 1px solid #333;\n            margin: 20px 0;\n        \x7d\n        ul \x7b\n            list-style-type: square;\n            color: #e0e0e0;\n        \x7d\n        ".data

/-- Light-mode CSS variant (lines 116-146). -/
def LIGHT_CSS : Str :=
  "\n        body \x7b\n            font-family: \x27Segoe UI\x27, Arial, sans-serif;\n            line-height: 1.6;\n            padding: 40px;\n            max-width: 800px;\n            margin: 0 auto;\n            color: #333;\n        \x7d\n        h1, h2, h3 \x7b\n            color: #2c3e50;\n        \x7d\n        h1 \x7b\n            border-bottom: 2px solid #3498db;\n            padding-bottom: 10px;\n        \x7d\n        h2 \x7b\n            border-bottom: 1px solid #ddd;\n            padding-bottom: 5px;\n        \x7d\n        a \x7b\n            color: #3498db;\n            text-decoration: none;\n        \x7d\n        a:hover \x7b\n            text-decoration: underline;\n        \x7d\n        ul \x7b\n            list-style-type: square;\n        \x7d\n        ".data

/-- The style block of the converter-unavailable fallback document
(lines 63-76); the doubled braces of the Python f-string denote literal
braces in the output. -/
def FALLBACK_STYLE : Str :=
  "        body \x7b font-family: Arial, sans-serif; line-height: 1.6; padding: 20px; \x7d\n        pre \x7b white-space: pre-wrap; \x7d".data

/-- Document produced by `save_as_html`: when the markdown converter is
unavailable the text is wrapped verbatim in `<pre>` with the fallback
style (lines 59-77); otherwise the converted text is placed in the shell
with the dark or light CSS (lines 79-161). -/
def save_as_html_doc (markdownAvailable : Bool) (convert : Str → Str)
    (resume_text : Str) (dark_mode : Bool) : Str :=
  if !markdownAvailable then
    html_shell FALLBACK_STYLE ("<pre>".data ++ resume_text ++ "</pre>".data)
  else
    html_shell (if dark_mode then DARK_CSS else LIGHT_CSS) (convert resume_text)

/-- C8 counterexample: the fallback document for the text "hi" does use
the shared shell and a `<pre>` block, but its style block is a third CSS
variant, equal to neither the light nor the dark one — refuting
"exactly two CSS variants (light and dark) exist and no others". -/
theorem c8_counterexample :
    save_as_html_doc false (fun s => s) "hi".data false =
      html_shell FALLBACK_STYLE ("<pre>hi</pre>".data) ∧
    FALLBACK_STYLE ≠ LIGHT_CSS ∧ FALLBACK_STYLE ≠ DARK_CSS := by
  refine ⟨rfl, ?_, ?_⟩ <;> decide

/-- C8 (amended): when the converter is unavailable the export never
raises and produces the complete shell document wrapping the text
verbatim in a `<pre>` block, but with its own third fixed CSS variant;
the converter path uses exactly the light and dark variants, selected by
the dark-mode flag. -/
theorem c8_export_fallback (convert : Str → Str) (text : Str) (dark : Bool) :
    save_as_html_doc false convert text dark =
      html_shell FALLBACK_STYLE ("<pre>".data ++ text ++ "</pre>".data) ∧
    save_as_html_doc true convert text dark =
      html_shell (if dark then DARK_CSS else LIGHT_CSS) (convert text) ∧
    FALLBACK_STYLE ≠ LIGHT_CSS ∧ FALLBACK_STYLE ≠ DARK_CSS ∧
    LIGHT_CSS ≠ DARK_CSS := by
  refine ⟨rfl, rfl, ?_, ?_, ?_⟩ <;> decide

/-! ## Line classification of the PDF and DOCX exporters
(`resume_export.save_as_pdf` lines 194-227, `save_as_docx` lines
255-287) -/

/-- Structural element assigned to one line of the rendered text. -/
inductive Element where
  | h1 (s : Str)
  | h2 (s : Str)
  | h3 (s : Str)
  | boldLine (s : Str)
  | bullet (s : Str)
  | blank
  | sep
  | boldRuns (runs : List (Str × Bool))
  | para (s : Str)
  deriving Repr, DecidableEq

/-- Index of the first occurrence of `**`. -/
def findStars : Str → Option Nat
  | [] => none
  | [_] => none
  | a :: b :: t =>
    if a == '*' && b == '*' then some 0 else (findStars (b :: t)).map (· + 1)

theorem findStars_le {s : Str} {i : Nat} (h : findStars s = some i) :
    i + 2 ≤ s.length := by
  induction s generalizing i with
  | nil => simp [findStars] at h
  | cons a t ih =>
    match t with
    | [] => simp [findStars] at h
    | b :: u =>
      rw [findStars] at h
      split at h
      · cases h; simp
      · simp only [Option.map_eq_some'] at h
        obtain ⟨j, hj, rfl⟩ := h
        have := ih hj
        simp at this ⊢
        omega

/-- `re.split(r'(\*\*.*?\*\*)', line)`: the list of pieces between
matches interleaved with the (non-greedy) matched `**...**` spans,
empty pieces included. -/
def splitBold (s : Str) : List Str :=
  match h : findStars s with
  | none => [s]
  | some i =>
    let rest := s.drop (i + 2)
    match h2 : findStars rest with
    | none => [s]
    | some j =>
      s.take i ::
        ("**".data ++ rest.take j ++ "**".data) ::
          splitBold (rest.drop (j + 2))
termination_by s.length
decreasing_by
  have hi := findStars_le h
  have hj := findStars_le h2
  simp [List.length_drop] at hj ⊢
  omega

/-- The inline-bold run list built by the DOCX writer (lines 275-284):
each piece that both starts and ends with `**` becomes a bold run of its
interior, every other piece a plain run. -/
def boldRunsOf (line : Str) : List (Str × Bool) :=
  (splitBold line).map (fun p =>
    if startsL "**".data p && endsL "**".data p then
      ((p.drop 2).take (p.length - 4), true)
    else (p, false))

/-- Separator-line test shared by both writers:
`'=' in line and len(line.strip()) > 10 and all(c == '=' for c in line.strip())`. -/
def isSepL (line : Str) : Bool :=
  line.contains '=' && decide ((stripWs line).length > 10) &&
    (stripWs line).all (· == '=')

/-- Line classification of the PDF writer (lines 196-227). -/
def classifyPdf (line : Str) : Element :=
  if startsL "# ".data line then .h1 (line.drop 2)
  else if startsL "## ".data line then .h2 (line.drop 3)
  else if startsL "### ".data line then .h3 (line.drop 4)
  else if startsL "**".data line && endsL "**".data line then
    .boldLine (stripSet ['*'] line)
  else if startsL "-".data line || startsL "*".data line then
    .bullet (stripWs (line.drop 1))
  else if (stripWs line).isEmpty then .blank
  else if isSepL line then .sep
  else .para line

/-- Line classification of the DOCX writer (lines 257-287); blank lines
are classified as `blank` (the writer skips them where the PDF writer
emits vertical space). -/
def classifyDocx (line : Str) : Element :=
  if startsL "# ".data line then .h1 (line.drop 2)
  else if startsL "## ".data line then .h2 (line.drop 3)
  else if startsL "### ".data line then .h3 (line.drop 4)
  else if startsL "-".data line || startsL "*".data line then
    .bullet (stripWs (line.drop 1))
  else if (stripWs line).isEmpty then .blank
  else if isSepL line then .sep
  else if containsSub "**".data line then .boldRuns (boldRunsOf line)
  else .para line

/-- C5 counterexample: on the line `**Bold**` the PDF writer produces a
standalone bold line while the DOCX writer, which tests for bullets
before bold, produces a bullet item — so the two writers do not share
one classification function. -/
theorem c5_counterexample :
    classifyPdf "**Bold**".data ≠ classifyDocx "**Bold**".data := by
  decide

/-- C5 (amended): the two writers agree on headings and on every line
that is not of the bold-standalone shape `**...**` and is a bullet,
blank or separator line or has no inline `**`; they diverge exactly on
non-heading bold-standalone lines (PDF: bold line, DOCX: bullet) and on
otherwise-plain lines containing `**` (PDF: plain paragraph, DOCX:
inline bold runs). -/
theorem c5_classify_agreement (line : Str) :
    classifyPdf line = classifyDocx line ↔
      ((startsL "# ".data line = true ∨ startsL "## ".data line = true ∨
        startsL "### ".data line = true) ∨
       ((startsL "**".data line && endsL "**".data line) = false ∧
        ((startsL "-".data line || startsL "*".data line) = true ∨
         (stripWs line).isEmpty = true ∨ isSepL line = true ∨
         containsSub "**".data line = false))) := by
  unfold classifyPdf classifyDocx
  by_cases g1 : startsL "# ".data line = true
  · simp [g1]
  · simp only [Bool.not_eq_true] at g1
    by_cases g2 : startsL "## ".data line = true
    · simp [g1, g2]
    · simp only [Bool.not_eq_true] at g2
      by_cases g3 : startsL "### ".data line = true
      · simp [g1, g2, g3]
      · simp only [Bool.not_eq_true] at g3
        by_cases gb : (startsL "**".data line && endsL "**".data line) = true
        · have gs : startsL "*".data line = true := by
            cases line with
            | nil => simp [startsL] at gb
            | cons c cs =>
              simp only [Bool.and_eq_true] at gb
              have := gb.1
              simp [startsL, String.data] at this ⊢
              exact this.1
          simp [g1, g2, g3, gb, gs]
        · simp only [Bool.not_eq_true] at gb
          by_cases g4 : (startsL "-".data line || startsL "*".data line) = true
          · simp [g1, g2, g3, gb, g4]
          · simp only [Bool.not_eq_true] at g4
            by_cases g5 : (stripWs line).isEmpty = true
            · simp [g1, g2, g3, gb, g4, g5]
            · simp only [Bool.not_eq_true] at g5
              by_cases g6 : isSepL line = true
              · simp [g1, g2, g3, gb, g4, g5, g6]
              · simp only [Bool.not_eq_true] at g6
                by_cases g7 : containsSub "**".data line = true
                · simp [g1, g2, g3, gb, g4, g5, g6, g7]
                · simp only [Bool.not_eq_true] at g7
                  simp [g1, g2, g3, gb, g4, g5, g6, g7]

/-! ## Keyword extraction fallback
(`text_enhancer.extract_keywords_from_job_description`, lines 487-571).
The primary path delegates to the external generative service; under the
claim's premise that the service is unavailable, the function is its
deterministic fallback (lines 526-571), which is what is embedded. -/

/-- The stop-word set of the fallback (lines 528-540). -/
def KW_COMMON_WORDS : List Str :=
  ["a", "an", "the", "and", "or", "but", "is", "are", "was", "were", "be", "been",
   "being", "in", "on", "at", "by", "for", "with", "about", "against", "between",
   "into", "through", "during", "before", "after", "above", "below", "to", "from",
   "up", "down", "of", "off", "over", "under", "again", "further", "then", "once",
   "here", "there", "when", "where", "why", "how", "all", "any", "both", "each",
   "few", "more", "most", "other", "some", "such", "no", "nor", "not", "only",
   "own", "same", "so", "than", "too", "very", "s", "t", "can", "will", "just",
   "don", "should", "now", "you", "we", "our", "company", "position", "job", "role",
   "candidate", "applicant", "ideal", "looking", "must", "required", "preferred",
   "responsibilities", "qualifications", "requirements", "ability", "experience",
   "work", "working", "team", "strong", "excellent", "include",
   "including"].map String.data

/-- ASCII letter test (`[a-zA-Z]`). -/
def isAsciiAlpha (c : Char) : Bool :=
  (65 ≤ c.toNat && c.toNat ≤ 90) || (97 ≤ c.toNat && c.toNat ≤ 122)

/-- The token body class `[a-zA-Z+#.]`. -/
def kwClass (c : Char) : Bool :=
  isAsciiAlpha c || c == '+' || c == '#' || c == '.'

/-- Backtracking of the trailing `\b` of `\b[a-zA-Z][a-zA-Z+#.]*\b`:
given the greedy class run and the character following it, the longest
token length `k ≥ 1` whose last character's word-ness differs from that
of the next character (end of text counts as non-word). -/
def kwBestK (run : Str) (aft : Option Char) : Option Nat :=
  (List.range run.length).reverse.findSome? (fun km1 =>
    let k := km1 + 1
    let nextW : Bool :=
      match (if k < run.length then some (run.getD k ' ') else aft) with
      | none => false
      | some d => wordC d
    if wordC (run.getD km1 ' ') != nextW then some k else none)

/-- `re.findall(r'\b[a-zA-Z][a-zA-Z+#.]*\b', s)`: left-to-right scan;
at each position with a word boundary and an ASCII letter, emit the
longest boundary-terminated token and continue after it (fuel is the
remaining text length, which always suffices). -/
def kwScan : Nat → Bool → Str → List Str
  | 0, _, _ => []
  | _ + 1, _, [] => []
  | fuel + 1, pw, c :: cs =>
    if !pw && isAsciiAlpha c then
      let run := c :: cs.takeWhile kwClass
      let after := (cs.drop (run.length - 1)).head?
      match kwBestK run after with
      | some k => run.take k :: kwScan fuel (wordC (run.getD (k - 1) ' ')) ((c :: cs).drop k)
      | none => kwScan fuel (wordC c) cs
    else kwScan fuel (wordC c) cs

/-- Tokenization of the lower-cased job description (line 543). -/
def kwTokens (s : Str) : List Str := kwScan s.length false s

/-- Adjacent word pairs with neither word a stop word (lines 555-560). -/
def kwPairs : List Str → List Str
  | [] => []
  | [_] => []
  | a :: b :: t =>
    (if !(KW_COMMON_WORDS.contains a) && !(KW_COMMON_WORDS.contains b) then
       [a ++ (' ' :: b)]
     else []) ++ kwPairs (b :: t)

/-- One dictionary update `word_counts[k] += w` / `= w`: Python dicts
keep insertion order, modelled as an association list updated in place
or extended at the end. -/
def bump (l : List (Str × Nat)) (k : Str) (w : Nat) : List (Str × Nat) :=
  if l.any (fun p => p.1 == k) then
    l.map (fun p => if p.1 == k then (p.1, p.2 + w) else p)
  else l ++ [(k, w)]

/-- The frequency table (lines 544-567): filtered single tokens count 1
each, qualifying adjacent pairs add 3. -/
def kwCounts (jd : Str) : List (Str × Nat) :=
  let toks := (kwTokens (lowerStr jd)).filter
    (fun w => !(KW_COMMON_WORDS.contains w) && decide (2 < w.length))
  let base := toks.foldl (fun acc w => bump acc w 1) []
  (kwPairs (splitWs (lowerStr jd))).foldl (fun acc p => bump acc p 3) base

/-- Stable insertion into a descending-by-count list: the new element
goes after every strictly larger count and before equal ones. -/
def insertDesc (x : Str × Nat) : List (Str × Nat) → List (Str × Nat)
  | [] => [x]
  | y :: ys => if y.2 > x.2 then y :: insertDesc x ys else x :: y :: ys

/-- Stable descending sort by count, the behaviour of
`sorted(items, key=lambda x: x[1], reverse=True)` (Python's sort is
stable and `reverse=True` keeps equal elements in original order). -/
def sortDesc : List (Str × Nat) → List (Str × Nat)
  | [] => []
  | x :: xs => insertDesc x (sortDesc xs)

/-- The fallback extractor's result (lines 570-571): keys of the top 20
sorted entries. -/
def extract_keywords_fallback (jd : Str) : List Str :=
  ((sortDesc (kwCounts jd)).take 20).map Prod.fst

/-- First-seen position of a key in the frequency table
(`l.length` when absent). -/
def posIdx (l : List (Str × Nat)) (k : Str) : Nat :=
  l.findIdx (fun p => p.1 == k)

/-- Keys of an association list are pairwise distinct. -/
def KeysDistinct (l : List (Str × Nat)) : Prop :=
  l.Pairwise (fun a b => a.1 ≠ b.1)

theorem keysDistinct_bump {l : List (Str × Nat)} (h : KeysDistinct l)
    (k : Str) (w : Nat) : KeysDistinct (bump l k w) := by
  unfold bump
  split
  · unfold KeysDistinct at h ⊢
    rw [List.pairwise_map]
    refine h.imp_of_mem ?_
    intro a b _ _ hab
    split <;> split <;> simpa using hab
  · rename_i hany
    unfold KeysDistinct at h ⊢
    rw [List.pairwise_append]
    refine ⟨h, List.pairwise_singleton _ _, ?_⟩
    intro a ha b hb
    simp only [List.mem_singleton] at hb
    subst hb
    intro hak
    exact hany (List.any_eq_true.mpr ⟨a, ha, by simp [hak]⟩)

theorem keysDistinct_foldl_bump (w : Nat) :
    ∀ (ws : List Str) (l : List (Str × Nat)), KeysDistinct l →
      KeysDistinct (ws.foldl (fun acc x => bump acc x w) l) := by
  intro ws
  induction ws with
  | nil => intro l h; exact h
  | cons a t ih => intro l h; exact ih _ (keysDistinct_bump h a w)

theorem keysDistinct_kwCounts (jd : Str) : KeysDistinct (kwCounts jd) := by
  unfold kwCounts
  exact keysDistinct_foldl_bump 3 _ _ (keysDistinct_foldl_bump 1 _ [] (List.Pairwise.nil))

/-- In a distinct-key table, the pairs are ordered by their first-seen
position. -/
theorem posIdx_pairwise :
    ∀ (l : List (Str × Nat)), KeysDistinct l →
      l.Pairwise (fun a b => posIdx l a.1 < posIdx l b.1) := by
  intro l
  induction l with
  | nil => intro _; exact List.Pairwise.nil
  | cons p t ih =>
    intro h
    unfold KeysDistinct at h
    rw [List.pairwise_cons] at h
    obtain ⟨hp, ht⟩ := h
    constructor
    · intro b hb
      unfold posIdx
      rw [List.findIdx_cons, List.findIdx_cons]
      have h1 : (p.1 == p.1) = true := by simp
      have h2 : (p.1 == b.1) = false := by
        simp only [beq_eq_false_iff_ne, ne_eq]
        exact hp b hb
      simp [h1, h2]
    · refine (ih ht).imp_of_mem ?_
      intro a b ha hb hab
      unfold posIdx at hab ⊢
      rw [List.findIdx_cons, List.findIdx_cons]
      have h2 : (p.1 == a.1) = false := by
        simp only [beq_eq_false_iff_ne, ne_eq]
        exact hp a ha
      have h3 : (p.1 == b.1) = false := by
        simp only [beq_eq_false_iff_ne, ne_eq]
        exact hp b hb
      simp only [h2, h3, cond_false]
      omega

theorem mem_insertDesc {x a : Str × Nat} :
    ∀ {l : List (Str × Nat)}, a ∈ insertDesc x l ↔ a = x ∨ a ∈ l := by
  intro l
  induction l with
  | nil => simp [insertDesc]
  | cons y ys ih =>
    unfold insertDesc
    split
    · rw [List.mem_cons, ih, List.mem_cons]
      tauto
    · simp only [List.mem_cons]

theorem mem_sortDesc {a : Str × Nat} :
    ∀ {l : List (Str × Nat)}, a ∈ sortDesc l ↔ a ∈ l := by
  intro l
  induction l with
  | nil => simp [sortDesc]
  | cons x xs ih => unfold sortDesc; rw [mem_insertDesc]; simp [ih]

/-- Descending order with ties broken by a tie relation `Q`. -/
@[reducible] def DescR (Q : (Str × Nat) → (Str × Nat) → Prop)
    (a b : Str × Nat) : Prop :=
  a.2 > b.2 ∨ (a.2 = b.2 ∧ Q a b)

theorem pairwise_insertDesc {Q} {x : Str × Nat} :
    ∀ {l : List (Str × Nat)}, l.Pairwise (DescR Q) →
      (∀ y ∈ l, Q x y) → (insertDesc x l).Pairwise (DescR Q) := by
  intro l
  induction l with
  | nil => intro _ _; simp [insertDesc]
  | cons y ys ih =>
    intro hl hx
    rw [List.pairwise_cons] at hl
    obtain ⟨hy, hys⟩ := hl
    unfold insertDesc
    split
    · rename_i hgt
      rw [List.pairwise_cons]
      refine ⟨?_, ih hys (fun z hz => hx z (List.mem_cons_of_mem _ hz))⟩
      intro z hz
      rcases mem_insertDesc.mp hz with rfl | hz'
      · exact Or.inl hgt
      · exact hy z hz'
    · rename_i hle
      push_neg at hle
      rw [List.pairwise_cons]
      constructor
      · intro z hz
        rcases List.mem_cons.mp hz with rfl | hz'
        · rcases Nat.lt_or_ge z.2 x.2 with h | h
          · exact Or.inl h
          · exact Or.inr ⟨Nat.le_antisymm h hle, hx z (List.mem_cons_self _ _)⟩
        · rcases hy z hz' with h | h
          · exact Or.inl (by omega)
          · rcases Nat.lt_or_ge z.2 x.2 with h2 | h2
            · exact Or.inl h2
            · refine Or.inr ⟨by omega, hx z (List.mem_cons_of_mem _ hz')⟩
      · exact List.Pairwise.cons hy hys

theorem pairwise_sortDesc {Q} :
    ∀ {l : List (Str × Nat)}, l.Pairwise Q →
      (sortDesc l).Pairwise (DescR Q) := by
  intro l
  induction l with
  | nil => intro _; exact List.Pairwise.nil
  | cons x xs ih =>
    intro h
    rw [List.pairwise_cons] at h
    exact pairwise_insertDesc (ih h.2) (fun y hy => h.1 y (mem_sortDesc.mp hy))

/-- C6: the deterministic keyword-extraction fallback returns at most 20
terms, they are the keys of the top 20 entries of the frequency table
sorted descending by accumulated count with ties broken by first-seen
order, and (the function being a pure function of the text) repeated
calls return the identical list. -/
theorem c6_keyword_fallback (jd : Str) :
    (extract_keywords_fallback jd).length ≤ 20 ∧
    extract_keywords_fallback jd =
      ((sortDesc (kwCounts jd)).take 20).map Prod.fst ∧
    (sortDesc (kwCounts jd)).Pairwise
      (fun a b => a.2 > b.2 ∨
        (a.2 = b.2 ∧ posIdx (kwCounts jd) a.1 < posIdx (kwCounts jd) b.1)) ∧
    extract_keywords_fallback jd = extract_keywords_fallback jd := by
  refine ⟨?_, rfl, ?_, rfl⟩
  · unfold extract_keywords_fallback
    rw [List.length_map]
    exact List.length_take_le _ _
  · exact pairwise_sortDesc (posIdx_pairwise _ (keysDistinct_kwCounts jd))

/-! ## The whole-word substitution scanner

`re.finditer`/`re.sub` of a pattern `\b<pat>\b` with `re.IGNORECASE`:
a single left-to-right pass over the original text; at each position
with a head match the replacement is emitted, the matched text recorded,
and scanning resumes after the match (the running previous-character
word-ness then being that of the last matched character, CI-equal to the
pattern's last).  The fuel argument (initially the text length, which
always suffices because a match consumes at least one character) makes
the definition structurally recursive. -/
def scanF (pat rep : Str) : Nat → Bool → Str → Str × List Str
  | 0, _, s => (s, [])
  | _ + 1, _, [] => ([], [])
  | fuel + 1, pw, c :: cs =>
    if hitHead pat pw (c :: cs) then
      (rep ++ (scanF pat rep fuel (wordC (pat.getLastD ' ')) ((c :: cs).drop pat.length)).1,
       (c :: cs).take pat.length ::
         (scanF pat rep fuel (wordC (pat.getLastD ' ')) ((c :: cs).drop pat.length)).2)
    else
      (c :: (scanF pat rep fuel (wordC c) cs).1, (scanF pat rep fuel (wordC c) cs).2)

/-- `(re.sub(pattern, rep, s), [m.group(0) for m in re.finditer(pattern, s)])`
for `pattern = r"\b<pat>\b"` with `re.IGNORECASE`. -/
def scanW (pat rep : Str) (pw : Bool) (s : Str) : Str × List Str :=
  scanF pat rep s.length pw s

theorem patLen_pos_of_hitHead {pat : Str} {pw : Bool} {s : Str}
    (hh : hitHead pat pw s = true) : 1 ≤ pat.length := by
  unfold hitHead at hh
  cases pat
  · simp [List.isEmpty] at hh
  · simp

theorem scanF_fuel (pat rep : Str) :
    ∀ f1 : Nat, ∀ f2 pw (s : Str), s.length ≤ f1 → s.length ≤ f2 →
      scanF pat rep f1 pw s = scanF pat rep f2 pw s := by
  intro f1
  induction f1 with
  | zero =>
    intro f2 pw s h1 _
    have hs : s = [] := List.eq_nil_of_length_eq_zero (Nat.le_zero.mp h1)
    subst hs
    cases f2 <;> rfl
  | succ n ih =>
    intro f2 pw s h1 h2
    cases s with
    | nil => cases f2 <;> rfl
    | cons c cs =>
      cases f2 with
      | zero => simp at h2
      | succ m =>
        have hl1 : cs.length + 1 ≤ n + 1 := by simpa using h1
        have hl2 : cs.length + 1 ≤ m + 1 := by simpa using h2
        rw [scanF, scanF]
        by_cases hh : hitHead pat pw (c :: cs) = true
        · have hlen : 1 ≤ pat.length := patLen_pos_of_hitHead hh
          have hd : ((c :: cs).drop pat.length).length ≤ n := by
            simp only [List.length_drop, List.length_cons]
            omega
          have hd2 : ((c :: cs).drop pat.length).length ≤ m := by
            simp only [List.length_drop, List.length_cons]
            omega
          rw [if_pos hh, if_pos hh, ih m _ _ hd hd2]
        · have hc : cs.length ≤ n := by omega
          have hc2 : cs.length ≤ m := by omega
          rw [if_neg hh, if_neg hh, ih m _ _ hc hc2]

theorem scanW_nil (pat rep : Str) (pw : Bool) : scanW pat rep pw [] = ([], []) := rfl

theorem scanW_cons (pat rep : Str) (pw : Bool) (c : Char) (cs : Str) :
    scanW pat rep pw (c :: cs) =
      if hitHead pat pw (c :: cs) then
        (rep ++ (scanW pat rep (wordC (pat.getLastD ' ')) ((c :: cs).drop pat.length)).1,
         (c :: cs).take pat.length ::
           (scanW pat rep (wordC (pat.getLastD ' ')) ((c :: cs).drop pat.length)).2)
      else
        (c :: (scanW pat rep (wordC c) cs).1, (scanW pat rep (wordC c) cs).2) := by
  unfold scanW
  rw [show (c :: cs).length = cs.length + 1 from rfl, scanF]
  by_cases hh : hitHead pat pw (c :: cs) = true
  · have hlen : 1 ≤ pat.length := patLen_pos_of_hitHead hh
    have hd : ((c :: cs).drop pat.length).length ≤ cs.length := by
      simp only [List.length_drop, List.length_cons]
      omega
    rw [if_pos hh, if_pos hh,
      scanF_fuel pat rep cs.length ((c :: cs).drop pat.length).length _ _ hd (le_refl _)]
  · rw [if_neg hh, if_neg hh]

/-! ## Lexicon tables (`text_enhancer.py`, lines 24-199) -/

/-- `COMMON_SPELLING_MISTAKES` (lines 24-78), in source order. -/
def COMMON_SPELLING_MISTAKES : List (Str × Str) :=
  [("accomodate", "accommodate"), ("acheive", "achieve"), ("accross", "across"),
   ("agressive", "aggressive"), ("alot", "a lot"), ("arguement", "argument"),
   ("assesment", "assessment"), ("basicly", "basically"), ("begining", "beginning"),
   ("beleive", "believe"), ("calender", "calendar"), ("catagory", "category"),
   ("commited", "committed"), ("completly", "completely"), ("concious", "conscious"),
   ("definately", "definitely"), ("dissapoint", "disappoint"), ("embarass", "embarrass"),
   ("enviroment", "environment"), ("excelent", "excellent"), ("explaination", "explanation"),
   ("familar", "familiar"), ("finaly", "finally"), ("foriegn", "foreign"),
   ("gaurd", "guard"), ("goverment", "government"), ("grammer", "grammar"),
   ("happend", "happened"), ("harrassment", "harassment"), ("immediatly", "immediately"),
   ("independant", "independent"), ("liason", "liaison"), ("maintainance", "maintenance"),
   ("millenium", "millennium"), ("neccessary", "necessary"), ("noticable", "noticeable"),
   ("occassion", "occasion"), ("occured", "occurred"), ("persistant", "persistent"),
   ("personel", "personnel"), ("plannning", "planning"), ("posession", "possession"),
   ("prefered", "preferred"), ("recieve", "receive"), ("reccomend", "recommend"),
   ("refered", "referred"), ("referance", "reference"), ("relevent", "relevant"),
   ("seperate", "separate"), ("succesful", "successful"), ("supercede", "supersede"),
   ("tommorrow", "tomorrow"), ("untill", "until")].map
    (fun p => (p.1.data, p.2.data))

/-- `WEAK_WORDS` (lines 115-120), in source order. -/
def WEAK_WORDS : List Str :=
  ["very", "really", "just", "quite", "basically", "actually", "simply", "nice",
   "good", "bad", "great", "like", "thing", "stuff", "etc", "a lot", "got", "kind of",
   "sort of", "type of", "feel", "think", "believe", "hope", "pretty", "guess", "maybe",
   "perhaps", "seems", "appeared to", "tried to"].map String.data

/-- `RESUME_CLICHES` (lines 123-149), in source order, including the
duplicated "think outside the box" entry. -/
def RESUME_CLICHES : List Str :=
  ["team player", "detail-oriented", "self-starter", "hard worker",
   "results-driven", "go-getter", "think outside the box", "synergy",
   "proactive", "go-to person", "dynamic", "solution-driven", "multitasker",
   "excellent communication skills", "track record of success", "bottom line",
   "value-added", "win-win", "cutting edge", "best of breed", "results-oriented",
   "fast-paced environment", "think outside the box", "synergize",
   "hit the ground running"].map String.data

/-- `ACTION_VERBS` (lines 152-199), categories in source (dict insertion)
order. -/
def ACTION_VERBS : List (String × List Str) :=
  [("management",
    ["Administered", "Analyzed", "Assigned", "Attained", "Chaired",
     "Consolidated", "Contracted", "Coordinated", "Delegated", "Developed",
     "Directed", "Evaluated", "Executed", "Improved", "Increased",
     "Organized", "Oversaw", "Planned", "Prioritized", "Produced",
     "Recommended", "Reviewed", "Scheduled", "Strengthened", "Supervised"].map String.data),
   ("communication",
    ["Addressed", "Arbitrated", "Arranged", "Authored", "Collaborated",
     "Convinced", "Corresponded", "Developed", "Directed", "Drafted",
     "Edited", "Enlisted", "Formulated", "Influenced", "Interpreted",
     "Lectured", "Mediated", "Moderated", "Negotiated", "Persuaded",
     "Promoted", "Publicized", "Reconciled", "Recruited", "Translated"].map String.data),
   ("research",
    ["Analyzed", "Clarified", "Collected", "Compared", "Conducted",
     "Critiqued", "Detected", "Determined", "Diagnosed", "Evaluated",
     "Examined", "Extracted", "Identified", "Inspected", "Interpreted",
     "Interviewed", "Investigated", "Organized", "Reviewed", "Summarized",
     "Surveyed", "Systematized", "Tested", "Validated", "Verified"].map String.data),
   ("technical",
    ["Assembled", "Built", "Calculated", "Computed", "Designed",
     "Devised", "Engineered", "Fabricated", "Maintained", "Operated",
     "Optimized", "Overhauled", "Programmed", "Redesigned", "Reduced",
     "Remodeled", "Repaired", "Solved", "Standardized", "Upgraded"].map String.data),
   ("teaching",
    ["Adapted", "Advised", "Clarified", "Coached", "Communicated",
     "Coordinated", "Developed", "Enabled", "Encouraged", "Evaluated",
     "Explained", "Facilitated", "Guided", "Informed", "Instructed",
     "Persuaded", "Set goals", "Stimulated", "Taught", "Trained"].map String.data),
   ("creative",
    ["Acted", "Composed", "Conceived", "Conceptualized", "Created",
     "Customized", "Designed", "Developed", "Directed", "Established",
     "Fashioned", "Founded", "Illustrated", "Initiated", "Instituted",
     "Integrated", "Introduced", "Invented", "Originated", "Performed",
     "Planned", "Revitalized", "Shaped", "Visualized"].map String.data),
   ("financial",
    ["Administered", "Allocated", "Analyzed", "Appraised", "Audited",
     "Balanced", "Budgeted", "Calculated", "Computed", "Developed",
     "Forecasted", "Managed", "Marketed", "Planned", "Projected",
     "Researched", "Reduced", "Tracked", "Quantified", "Verified"].map String.data)]

/-! ## Spelling corrector (`text_enhancer.check_spelling`, lines 201-235) -/

/-- One iteration of the lexicon loop (lines 215-233): when the mistake
occurs as a case-insensitive whole word, record for every match the pair
`(matched text, correction with the match's capitalization)` and replace
every occurrence with the canonical (lower-case) correction. -/
def spellStep (acc : Str × List (Str × Str)) (e : Str × Str) : Str × List (Str × Str) :=
  if occG e.1 false acc.1 then
    let r := scanW e.1 e.2 false acc.1
    (r.1, acc.2 ++ r.2.map (fun m =>
      (m, if isUpperCh (m.headD ' ') then capStr e.2 else e.2)))
  else acc

/-- `check_spelling(text)`: fold the lexicon in source order. -/
def check_spelling (text : Str) : Str × List (Str × Str) :=
  COMMON_SPELLING_MISTAKES.foldl spellStep (text, [])

/-! ## Text enhancer (`text_enhancer.enhance_text`, lines 278-335) -/

/-- One weak-word iteration (lines 292-297): when the word occurs as a
case-insensitive whole word, delete every occurrence and append one
`(word, "(removed)")` enhancement. -/
def weakStep (acc : Str × List (Str × Str)) (w : Str) : Str × List (Str × Str) :=
  if occG w false acc.1 then
    ((scanW w [] false acc.1).1, acc.2 ++ [(w, "(removed)".data)])
  else acc

/-- The weak-word pass. -/
def enhance_weak (text : Str) : Str × List (Str × Str) :=
  WEAK_WORDS.foldl weakStep (text, [])

/-- The cliché pass (lines 300-303): one advisory enhancement per lexicon
entry (duplicates included) contained in the lower-cased text; the text
is not modified. -/
def cliche_enhancements (enhanced : Str) : List (Str × Str) :=
  (RESUME_CLICHES.filter (fun c => containsSub c (lowerStr enhanced))).map
    (fun c => (c, "Consider replacing with more specific achievements".data))

/-- Is the (stripped) line a bullet line (line 309)? -/
def isBulletLine (line : Str) : Bool :=
  startsL "•".data (stripWs line) || startsL "-".data (stripWs line) ||
    startsL "*".data (stripWs line)

/-- `content = line.strip()[1:].strip()` (line 310). -/
def bulletContent (line : Str) : Str := stripWs ((stripWs line).drop 1)

/-- Does the first word of the content (lower-cased, with trailing
`,.:;` stripped) equal some action verb, case-insensitively (line 314)? -/
def startsWithActionVerb (content : Str) : Bool :=
  match splitWs content with
  | [] => false
  | w0 :: _ =>
    ACTION_VERBS.any (fun cat => cat.2.any (fun verb =>
      lowerStr verb == rstripSet [',', '.', ':', ';'] (lowerStr w0)))

/-- Category score: how many of the category's verbs occur (lower-cased,
as substrings) in the lower-cased content (lines 319-325). -/
def catScore (content : Str) (verbs : List Str) : Nat :=
  (verbs.filter (fun v => containsSub (lowerStr v) (lowerStr content))).length

/-- `max(category_scores.items(), key=lambda x: x[1])[0]`: the first
category (in insertion order) with the maximal score; Python's `max`
keeps the earlier item on ties.  The "management" default of line 316 is
only reachable for an empty score table, which cannot occur. -/
def bestCat (content : Str) : String :=
  ((ACTION_VERBS.foldl (fun best cat =>
      match best with
      | none => some (cat.1, catScore content cat.2)
      | some b =>
        if catScore content cat.2 > b.2 then some (cat.1, catScore content cat.2)
        else some b)
    none).map Prod.fst).getD "management"

/-- The verb list of a category. -/
def verbsOf (cat : String) : List Str :=
  ((ACTION_VERBS.find? (fun c => c.1 == cat)).map (fun c => c.2)).getD []

/-- Per-line bullet suggestions (lines 307-333); `pick` models
`random.choice`. -/
def bulletSugg (pick : List Str → Str) (line : Str) : List (Str × Str) :=
  if isBulletLine line then
    let content := bulletContent line
    if ¬ (splitWs content).isEmpty ∧ ¬ startsWithActionVerb content then
      [("Bullet point: ".data ++ content,
        "Consider starting with an action verb like \x27".data ++
          pick (verbsOf (bestCat content)) ++ "\x27".data)]
    else []
  else []

/-- The action-verb pass over the lines of the weak-word-reduced text. -/
def bullet_enhancements (pick : List Str → Str) (enhanced : Str) : List (Str × Str) :=
  ((splitOn '\n' enhanced).map (bulletSugg pick)).flatten

/-- `enhance_text(text)`: the returned text is the weak-word pass output;
the enhancement list concatenates the weak-word, cliché and bullet
passes in order. -/
def enhance_text (pick : List Str → Str) (text : Str) : Str × List (Str × Str) :=
  let w := enhance_weak text
  (w.1, w.2 ++ cliche_enhancements w.1 ++ bullet_enhancements pick w.1)

/-! ## C3: case handling of the spelling corrector -/

/-- Each lexicon correction starts lower-case, and capitalizes to an
upper-case initial. -/
def goodCorrB (e : Str × Str) : Bool :=
  isUpperCh ((capStr e.2).headD ' ') && !(isUpperCh (e.2.headD ' '))

/-- A recorded correction pair preserves the capitalization of the
matched word in its first character. -/
def casePairB (p : Str × Str) : Bool :=
  isUpperCh (p.2.headD ' ') == isUpperCh (p.1.headD ' ')

theorem spell_fold_case :
    ∀ (entries : List (Str × Str)), entries.all goodCorrB = true →
      ∀ acc : Str × List (Str × Str), acc.2.all casePairB = true →
        (entries.foldl spellStep acc).2.all casePairB = true := by
  intro entries
  induction entries with
  | nil => intro _ acc h; exact h
  | cons e t ih =>
    intro hg acc hacc
    rw [List.all_cons, Bool.and_eq_true] at hg
    rw [List.foldl_cons]
    apply ih hg.2
    unfold spellStep
    split
    · simp only [List.all_append, Bool.and_eq_true]
      refine ⟨hacc, ?_⟩
      rw [List.all_eq_true]
      intro p hp
      rw [List.mem_map] at hp
      obtain ⟨m, _, rfl⟩ := hp
      unfold casePairB
      unfold goodCorrB at hg
      rw [Bool.and_eq_true] at hg
      obtain ⟨hcap, hlow⟩ := hg.1
      rw [Bool.not_eq_true'] at hlow
      by_cases hu : isUpperCh (m.headD ' ') = true
      · rw [if_pos hu, hu, hcap]
        rfl
      · have hu' : isUpperCh (m.headD ' ') = false := by
          rwa [Bool.not_eq_true] at hu
        rw [if_neg hu, hu', hlow]
        rfl
    · exact hacc

/-- C3 counterexample: for the input "Recieve this" the corrected text
does not contain the capitalized "Receive" the claim asserts — the
substitution inserts the lexicon's canonical lower-case correction. -/
theorem c3_counterexample :
    containsSub "Receive".data (check_spelling "Recieve this".data).1 = false := by
  decide

/-- C3 (amended): `correct("Recieve this")` yields the corrected text
"receive this" — the canonical lower-case correction, capitalization
being preserved only in the corrections list — and the corrections list
`[("Recieve", "Receive")]`; in general every recorded pair's replacement
has an upper-case first character exactly when the matched word's first
character is upper-case. -/
theorem c3_case_preservation :
    (check_spelling "Recieve this".data).1 = "receive this".data ∧
    (check_spelling "Recieve this".data).2 = [("Recieve".data, "Receive".data)] ∧
    ∀ text : Str, (check_spelling text).2.all casePairB = true := by
  refine ⟨by decide, by decide, ?_⟩
  intro text
  exact spell_fold_case COMMON_SPELLING_MISTAKES (by decide) (text, []) rfl

/-! ## C9: purity / determinism of the components -/

theorem bulletSugg_length (p1 p2 : List Str → Str) (line : Str) :
    (bulletSugg p1 line).length = (bulletSugg p2 line).length := by
  unfold bulletSugg
  by_cases hb : isBulletLine line = true
  · rw [if_pos hb, if_pos hb]
    dsimp only
    by_cases hc : ¬(splitWs (bulletContent line)).isEmpty = true ∧
        ¬startsWithActionVerb (bulletContent line) = true
    · rw [if_pos hc, if_pos hc]
      rfl
    · rw [if_neg hc, if_neg hc]
  · rw [if_neg hb, if_neg hb]

set_option maxHeartbeats 4000000 in
/-- C9 counterexample: `enhance_text` reads the shared pseudo-random
generator (`random.choice`, modelled by the `pick` argument): on the
bullet line "- worked on it" two different generator states produce
different outputs for the same text argument, refuting "two calls with
the same arguments always produce the same outputs". -/
theorem c9_counterexample :
    enhance_text (fun l => l.headD []) "- worked on it".data ≠
      enhance_text (fun l => (l.drop 1).headD []) "- worked on it".data := by
  decide

/-- C9 (amended): the spelling corrector, ATS scorer, keyword fallback
and exporter classification are pure functions of their inputs, and the
text returned by the enhancer — together with the number of
enhancements — does not depend on the pseudo-random verb choice; only
the suggested verb inside bullet enhancements does. -/
theorem c9_purity (p1 p2 : List Str → Str) (text : Str) :
    (enhance_text p1 text).1 = (enhance_text p2 text).1 ∧
    (enhance_text p1 text).2.length = (enhance_text p2 text).2.length ∧
    check_spelling text = check_spelling text ∧
    (∀ kws, calculate_ats_score text kws = calculate_ats_score text kws) ∧
    extract_keywords_fallback text = extract_keywords_fallback text ∧
    (∀ line, classifyPdf line = classifyPdf line ∧ classifyDocx line = classifyDocx line) := by
  refine ⟨rfl, ?_, rfl, fun _ => rfl, rfl, fun _ => ⟨rfl, rfl⟩⟩
  show ((enhance_weak text).2 ++ cliche_enhancements (enhance_weak text).1 ++
          bullet_enhancements p1 (enhance_weak text).1).length =
       ((enhance_weak text).2 ++ cliche_enhancements (enhance_weak text).1 ++
          bullet_enhancements p2 (enhance_weak text).1).length
  have hb : (bullet_enhancements p1 (enhance_weak text).1).length =
      (bullet_enhancements p2 (enhance_weak text).1).length := by
    unfold bullet_enhancements
    rw [List.length_flatten, List.length_flatten, List.map_map, List.map_map]
    have hmap : ((splitOn '\n' (enhance_weak text).1).map (List.length ∘ bulletSugg p1)) =
        ((splitOn '\n' (enhance_weak text).1).map (List.length ∘ bulletSugg p2)) :=
      List.map_congr_left (fun l _ => bulletSugg_length p1 p2 l)
    rw [hmap]
  simp only [List.length_append]
  rw [hb]

/-! ## Word-boundary rewriting theory

Infrastructure for the idempotence of `check_spelling` (C2) and the
weak-word behaviour of `enhance_text` (C4). -/

/-- Case-folded code points of a string. -/
def lows (s : Str) : List Nat := s.map lowC

theorem lows_length (s : Str) : (lows s).length = s.length := List.length_map _ _

theorem wordC_eq_of_lowC {a b : Char} (h : lowC a = lowC b) : wordC a = wordC b := by
  unfold wordC
  rw [h]

theorem lows_append (x y : Str) : lows (x ++ y) = lows x ++ lows y :=
  List.map_append _ _ _

theorem startsCI_lows {pat s : Str} :
    startsCI pat s = true ↔ lows pat <+: lows s := by
  induction pat generalizing s with
  | nil => simp [startsCI, lows]
  | cons p ps ih =>
    cases s with
    | nil => simp [startsCI, lows]
    | cons c cs =>
      rw [startsCI, Bool.and_eq_true, beq_iff_eq]
      show lowC p = lowC c ∧ startsCI ps cs = true ↔
        lowC p :: lows ps <+: lowC c :: lows cs
      rw [List.cons_prefix_cons, ih]

theorem startsCI_length {pat s : Str} (h : startsCI pat s = true) :
    pat.length ≤ s.length := by
  have := (startsCI_lows.mp h).length_le
  simpa [lows_length] using this

/-- Matches fill exactly the pattern length: combined with `startsCI`,
the case-folded match equals the case-folded pattern. -/
theorem lows_eq_of_match {pat m v : Str} (hlen : m.length = pat.length)
    (hs : startsCI pat (m ++ v) = true) : lows m = lows pat := by
  have hp := startsCI_lows.mp hs
  have : lows pat <+: lows m ++ lows v := by
    rw [← lows_append]
    exact hp
  have h2 : lows m <+: lows pat := by
    have hl : (lows m).length ≤ (lows pat).length := by
      simp [lows_length, hlen]
    exact List.prefix_of_prefix_length_le (List.prefix_append _ _) this hl
  exact (List.prefix_of_prefix_length_le h2
    (List.prefix_refl _) (by simp [lows_length, hlen])).eq_of_length
    (by simp [lows_length, hlen])

/-- Word-ness of the previous character after traversing `x`. -/
def pwEnd (pw : Bool) (x : Str) : Bool :=
  match x with
  | [] => pw
  | _ :: _ => wordC (x.getLastD ' ')

theorem pwEnd_cons (pw : Bool) (c : Char) (cs : Str) :
    pwEnd pw (c :: cs) = pwEnd (wordC c) cs := by
  cases cs with
  | nil => rfl
  | cons d ds => rfl

/-- No match of `\b<pat>\b` starts inside `x`, scanning `x ++ ctx` with
incoming previous-word-ness `pw`. -/
def noHitIn (pat : Str) : Bool → Str → Str → Bool
  | _, [], _ => true
  | pw, c :: cs, ctx =>
    !(hitHead pat pw (c :: (cs ++ ctx))) && noHitIn pat (wordC c) cs ctx

theorem occG_append (pat : Str) :
    ∀ (x : Str) (y : Str) (pw : Bool),
      occG pat pw (x ++ y) =
        (!(noHitIn pat pw x y) || occG pat (pwEnd pw x) y) := by
  intro x
  induction x with
  | nil => intro y pw; simp [noHitIn, pwEnd]
  | cons c cs ih =>
    intro y pw
    show occG pat pw (c :: (cs ++ y)) = _
    rw [occG, ih y (wordC c), noHitIn, pwEnd_cons]
    cases hitHead pat pw (c :: (cs ++ y)) <;>
      cases noHitIn pat (wordC c) cs y <;>
        simp

/-- `occG` with a true previous-word-ness finds no match at the very
first position (for word-initial patterns), hence implies `occG` with
any previous-word-ness. -/
theorem occG_mono {pat : Str} (hw : wordC (pat.headD ' ') = true) :
    ∀ {t : Str} {pw : Bool}, occG pat true t = true → occG pat pw t = true := by
  intro t
  induction t with
  | nil => intro pw h; simp [occG] at h
  | cons c cs _ =>
    intro pw h
    rw [occG, Bool.or_eq_true] at h ⊢
    rcases h with h | h
    · unfold hitHead at h
      rw [hw] at h
      simp at h
    · exact Or.inr h

/-- When the text starts with a non-word character and the pattern is
word-initial, the incoming previous-word-ness is irrelevant. -/
theorem occG_head_nw {pat : Str} (hw : wordC (pat.headD ' ') = true) {h : Char}
    (hh : wordC h = false) (t : Str) (pw1 pw2 : Bool) :
    occG pat pw1 (h :: t) = occG pat pw2 (h :: t) := by
  have hs : ∀ pw, hitHead pat pw (h :: t) = false := by
    intro pw
    unfold hitHead
    cases pat with
    | nil => rfl
    | cons p ps =>
      have : startsCI (p :: ps) (h :: t) = false := by
        rw [startsCI]
        have : (lowC p == lowC h) = false := by
          simp only [beq_eq_false_iff_ne, ne_eq]
          intro he
          have := wordC_eq_of_lowC he
          simp only [List.headD] at hw
          rw [hw, hh] at this
          exact Bool.true_eq_false.mp this
        simp [this]
      simp [this]
  rw [occG, occG, hs pw1, hs pw2]

/-- Like `occG_head_nw`, for a possibly-empty text with non-word head. -/
theorem occG_nwhead {pat : Str} (hw : wordC (pat.headD ' ') = true) {t : Str}
    (ht : t = [] ∨ wordC (t.headD ' ') = false) (pw1 pw2 : Bool) :
    occG pat pw1 t = occG pat pw2 t := by
  rcases ht with rfl | hh
  · rfl
  · cases t with
    | nil => rfl
    | cons h ts => exact occG_head_nw hw (by simpa using hh) ts pw1 pw2

/-- At most one non-word character. -/
def oneNW (p : Str) : Bool := decide ((p.filter (fun c => !wordC c)).length ≤ 1)

/-- No two adjacent non-word characters. -/
def noAdjNW : Str → Bool
  | [] => true
  | [_] => true
  | a :: b :: t => (wordC a || wordC b) && noAdjNW (b :: t)

/-- A word-edged pattern: non-empty, word-initial, word-final, no two
adjacent non-word characters.  All spelling mistakes, corrections and
weak words have this shape. -/
def wShaped (p : Str) : Bool :=
  !p.isEmpty && wordC (p.headD ' ') && wordC (p.getLastD ' ') && noAdjNW p

theorem wShaped_parts {p : Str} (h : wShaped p = true) :
    p.isEmpty = false ∧ wordC (p.headD ' ') = true ∧
      wordC (p.getLastD ' ') = true ∧ noAdjNW p = true := by
  unfold wShaped at h
  simp only [Bool.and_eq_true, Bool.not_eq_true'] at h
  exact ⟨h.1.1.1, h.1.1.2, h.1.2, h.2⟩

theorem hitHead_parts {pat : Str} {pw : Bool} {s : Str}
    (h : hitHead pat pw s = true) :
    pat.isEmpty = false ∧ (pw != wordC (pat.headD ' ')) = true ∧
      startsCI pat s = true ∧ bAft pat s = true := by
  unfold hitHead at h
  simp only [Bool.and_eq_true, Bool.not_eq_true'] at h
  exact ⟨h.1.1.1, h.1.1.2, h.1.2, h.2⟩

theorem hitHead_pw_false {pat : Str} {pw : Bool} {s : Str}
    (h : hitHead pat pw s = true) (hw : wordC (pat.headD ' ') = true) :
    pw = false := by
  have := (hitHead_parts h).2.1
  rw [hw] at this
  cases pw
  · rfl
  · simp at this

theorem patLen_pos {pat : Str} {pw : Bool} {s : Str}
    (h : hitHead pat pw s = true) : 1 ≤ pat.length := by
  have := (hitHead_parts h).1
  cases pat
  · simp [List.isEmpty] at this
  · simp

/-- After a full-length match, the following-character fact delivered by
the trailing `\b`: the remaining text is empty or starts non-word. -/
theorem bAft_after_match {pat m v : Str} (hlen : m.length = pat.length)
    (hb : bAft pat (m ++ v) = true) (hl : wordC (pat.getLastD ' ') = true) :
    v = [] ∨ wordC (v.headD ' ') = false := by
  unfold bAft at hb
  rw [← hlen, List.drop_left] at hb
  cases v with
  | nil => exact Or.inl rfl
  | cons d ds =>
    right
    simp only [List.headD]
    rw [hl] at hb
    simp only [bne_iff_ne, ne_eq] at hb
    cases hd : wordC d
    · rfl
    · rw [hd] at hb; simp at hb

/-- The head of the matched text is CI-equal to the pattern head, hence a
word character for word-initial patterns. -/
theorem match_head_word {pat m v : Str} (hlen : m.length = pat.length)
    (hpos : 1 ≤ pat.length)
    (hs : startsCI pat (m ++ v) = true) (hw : wordC (pat.headD ' ') = true) :
    wordC (m.headD ' ') = true := by
  have hm : lows m = lows pat := lows_eq_of_match hlen hs
  cases m with
  | nil => simp at hlen; omega
  | cons a as =>
    cases pat with
    | nil => simp at hpos
    | cons p ps =>
      simp only [lows, List.map_cons, List.cons.injEq] at hm
      simp only [List.headD] at hw ⊢
      rw [wordC_eq_of_lowC hm.1, hw]

/-- First-match decomposition of a `scanW` pass: either no match at all,
or the text splits as a match-free prefix `u`, the first match `m`, and
a remainder `v` processed recursively. -/
inductive SDec (pat rep : Str) : Bool → Str → Str → Prop
  | id (pw s) : occG pat pw s = false → SDec pat rep pw s s
  | hit (pw : Bool) (u m v t : Str) :
      noHitIn pat pw u (m ++ v) = true →
      hitHead pat (pwEnd pw u) (m ++ v) = true →
      m.length = pat.length →
      SDec pat rep (wordC (pat.getLastD ' ')) v t →
      SDec pat rep pw (u ++ (m ++ v)) (u ++ (rep ++ t))

theorem sdec_cons {pat rep : Str} {c : Char} {cs T : Str} {pw pw2 : Bool}
    (h : SDec pat rep pw2 cs T) (hpw : pw2 = wordC c)
    (hh : ¬ hitHead pat pw (c :: cs) = true) :
    SDec pat rep pw (c :: cs) (c :: T) := by
  cases h with
  | id _ _ hocc =>
    apply SDec.id
    rw [occG]
    rw [hpw] at hocc
    simp [hh, hocc]
  | hit _pw u m v t hno hhit hlen hsub =>
    rw [hpw] at hno hhit
    have := @SDec.hit pat rep pw (c :: u) m v t
      (by
        rw [noHitIn, Bool.and_eq_true]
        constructor
        · show (!hitHead pat pw (c :: (u ++ (m ++ v)))) = true
          simp [hh]
        · exact hno)
      (by rw [pwEnd_cons]; exact hhit) hlen hsub
    simpa using this

theorem scanW_sdec (pat rep : Str) :
    ∀ n (s : Str), s.length ≤ n → ∀ pw, SDec pat rep pw s (scanW pat rep pw s).1 := by
  intro n
  induction n with
  | zero =>
    intro s hs pw
    have : s = [] := List.eq_nil_of_length_eq_zero (Nat.le_zero.mp hs)
    subst this
    exact SDec.id pw [] rfl
  | succ k ih =>
    intro s hs pw
    cases s with
    | nil => exact SDec.id pw [] rfl
    | cons c cs =>
      rw [scanW_cons]
      by_cases hh : hitHead pat pw (c :: cs) = true
      · rw [if_pos hh]
        have hpos := patLen_pos hh
        have hsplit : (c :: cs) = (c :: cs).take pat.length ++ (c :: cs).drop pat.length :=
          (List.take_append_drop _ _).symm
        have hlen : ((c :: cs).take pat.length).length = pat.length := by
          rw [List.length_take]
          have := startsCI_length (hitHead_parts hh).2.2.1
          omega
        have hd : ((c :: cs).drop pat.length).length ≤ k := by
          rw [List.length_drop]
          simp only [List.length_cons] at hs ⊢
          omega
        have hrec := ih _ hd (wordC (pat.getLastD ' '))
        have := @SDec.hit pat rep pw []
          ((c :: cs).take pat.length) ((c :: cs).drop pat.length)
          (scanW pat rep (wordC (pat.getLastD ' ')) ((c :: cs).drop pat.length)).1
          (by rfl) (by rw [← hsplit]; exact hh) hlen hrec
        simpa using this
      · rw [if_neg hh]
        show SDec pat rep pw (c :: cs) (c :: (scanW pat rep (wordC c) cs).1)
        have hcs : cs.length ≤ k := by
          simp only [List.length_cons] at hs
          omega
        exact sdec_cons (ih cs hcs (wordC c)) rfl hh

/-- The output of a pass over a text with empty-or-non-word head again
has an empty-or-non-word head (no match can start at a non-word
character for a word-initial pattern, so the head is copied). -/
theorem sdec_head {pat rep : Str} (hw : wordC (pat.headD ' ') = true) :
    ∀ {pw : Bool} {v t : Str}, SDec pat rep pw v t →
      (v = [] ∨ wordC (v.headD ' ') = false) →
      (t = [] ∨ wordC (t.headD ' ') = false) := by
  intro pw v t h hv
  cases h with
  | id _ _ _ => exact hv
  | hit _ u m v2 t2 hno hhit hlen hsub =>
    cases u with
    | nil =>
      exfalso
      have hpos := patLen_pos hhit
      have hmw : wordC (m.headD ' ') = true :=
        match_head_word hlen hpos (hitHead_parts hhit).2.2.1 hw
      have hm : m ≠ [] := by
        intro he; subst he; simp at hlen; omega
      cases m with
      | nil => exact hm rfl
      | cons a as =>
        rcases hv with hv | hv
        · simp at hv
        · simp only [List.nil_append, List.cons_append, List.headD] at hv
          simp only [List.headD] at hmw
          rw [hmw] at hv
          simp at hv
    | cons a u' =>
      right
      rcases hv with hv | hv
      · simp at hv
      · simpa using hv

theorem getLastD_indep : ∀ {l : Str}, l ≠ [] → ∀ (a b : Char), l.getLastD a = l.getLastD b := by
  intro l
  induction l with
  | nil => intro h; exact absurd rfl h
  | cons c t ih =>
    intro _ a b
    cases t with
    | nil => rfl
    | cons d u => exact ih (by simp) c c

theorem getLastD_mem : ∀ {l : Str}, l ≠ [] → ∀ (d : Char), l.getLastD d ∈ l := by
  intro l
  induction l with
  | nil => intro h; exact absurd rfl h
  | cons c t ih =>
    intro _ d
    cases t with
    | nil => simp [List.getLastD]
    | cons e u =>
      have := ih (by simp) c
      simp only [List.getLastD]
      exact List.mem_cons_of_mem _ this

theorem lows_getLastD : ∀ (s : Str) (d : Char), (lows s).getLastD (lowC d) = lowC (s.getLastD d) := by
  intro s
  induction s with
  | nil => intro d; rfl
  | cons c t ih =>
    intro d
    cases t with
    | nil => rfl
    | cons e u =>
      show (lows (e :: u)).getLastD (lowC c) = lowC ((e :: u).getLastD c)
      exact ih c

theorem wordC_lows_last {x y : Str} (h : lows x = lows y) :
    wordC (x.getLastD ' ') = wordC (y.getLastD ' ') := by
  unfold wordC
  rw [← lows_getLastD, ← lows_getLastD, h]

theorem startsCI_append_short :
    ∀ (pat x : Str), pat.length ≤ x.length → ∀ (y : Str),
      startsCI pat (x ++ y) = startsCI pat x := by
  intro pat
  induction pat with
  | nil => intro x _ y; rfl
  | cons p ps ih =>
    intro x h y
    cases x with
    | nil => simp at h
    | cons a as =>
      show ((lowC p == lowC a) && startsCI ps (as ++ y)) = ((lowC p == lowC a) && startsCI ps as)
      rw [ih as (by simpa using h) y]

theorem lows_eq_of_len {pat x : Str} (hs : startsCI pat x = true)
    (hl : x.length = pat.length) : lows x = lows pat := by
  have hp := startsCI_lows.mp hs
  exact ((hp.eq_of_length (by simp [lows_length, hl])).symm)

theorem lows_take (s : Str) (n : Nat) : lows (s.take n) = (lows s).take n :=
  List.map_take ..

theorem lows_drop (s : Str) (n : Nat) : lows (s.drop n) = (lows s).drop n :=
  List.map_drop ..

theorem startsCI_split {A x z : Str} (hle : x.length ≤ A.length)
    (hs : startsCI A (x ++ z) = true) :
    lows (A.take x.length) = lows x ∧ startsCI (A.drop x.length) z = true := by
  obtain ⟨r, hr⟩ := startsCI_lows.mp hs
  rw [lows_append] at hr
  constructor
  · have htake := congrArg (List.take x.length) hr
    rw [List.take_append_of_le_length (by simpa [lows_length] using hle)] at htake
    rw [List.take_left' (by simp [lows_length])] at htake
    rw [lows_take, htake]
  · rw [startsCI_lows]
    have hdrop := congrArg (List.drop x.length) hr
    rw [List.drop_append_of_le_length (by simpa [lows_length] using hle)] at hdrop
    rw [List.drop_left' (by simp [lows_length])] at hdrop
    rw [lows_drop]
    exact ⟨r, hdrop⟩

theorem bAft_local {pat x : Str} (hlt : pat.length < x.length) (z : Str) :
    bAft pat (x ++ z) = bAft pat x := by
  unfold bAft
  rw [List.drop_append_of_le_length (le_of_lt hlt)]
  have : x.drop pat.length ≠ [] := by
    intro h
    have := congrArg List.length h
    simp [List.length_drop] at this
    omega
  cases hd : x.drop pat.length with
  | nil => exact absurd hd this
  | cons e es => rfl

theorem hitHead_false_of_starts {pat s : Str} {pw : Bool}
    (h : startsCI pat s = false) : hitHead pat pw s = false := by
  unfold hitHead
  rw [h]
  simp

theorem noAdj_cross :
    ∀ (x y : Str), noAdjNW (x ++ y) = true → y ≠ [] →
      wordC (x.getLastD ' ') = false → x ≠ [] → wordC (y.headD ' ') = true := by
  intro x
  induction x with
  | nil => intro y _ _ _ h; exact absurd rfl h
  | cons a as ih =>
    intro y hadj hy hlast _
    cases as with
    | nil =>
      cases y with
      | nil => exact absurd rfl hy
      | cons b bs =>
        show wordC ((b :: bs).headD ' ') = true
        have : ((wordC a || wordC b) && noAdjNW (b :: bs)) = true := hadj
        rw [Bool.and_eq_true] at this
        have hlast' : wordC a = false := by simpa [List.getLastD] using hlast
        rcases Bool.or_eq_true _ _ |>.mp this.1 with h | h
        · rw [hlast'] at h; simp at h
        · simpa using h
    | cons a2 as2 =>
      apply ih y _ hy _ (by simp)
      · have : ((wordC a || wordC a2) && noAdjNW (a2 :: (as2 ++ y))) = true := hadj
        rw [Bool.and_eq_true] at this
        exact this.2
      · have h1 : (a :: a2 :: as2).getLastD ' ' = (a2 :: as2).getLastD ' ' := by
          show (a2 :: as2).getLastD a = (a2 :: as2).getLastD ' '
          exact getLastD_indep (by simp) a ' '
        rw [← h1]
        exact hlast

theorem allW_take_last {A : Str} (hallw : A.all wordC = true) {n : Nat}
    (hne : A.take n ≠ []) : wordC ((A.take n).getLastD ' ') = true := by
  have hmem := getLastD_mem hne ' '
  have := List.mem_of_mem_take hmem
  exact List.all_eq_true.mp hallw _ this

/-- Transfer of a head-match failure from one continuation to another:
for a word-edged pattern, a match at the head of `x ++ old` that fails
cannot succeed on `x ++ new` when `x` ends in a non-word character,
provided the pattern is all-word or the new continuation starts
empty-or-non-word. -/
theorem hitHead_transfer {A x old new : Str} {pw : Bool} (hA : wShaped A = true)
    (hside : A.all wordC = true ∨ (new = [] ∨ wordC (new.headD ' ') = false))
    (hx : x ≠ []) (hlast : wordC (x.getLastD ' ') = false)
    (hold : hitHead A pw (x ++ old) = false) :
    hitHead A pw (x ++ new) = false := by
  obtain ⟨hne, hhead, hlastA, hadj⟩ := wShaped_parts hA
  rcases Nat.lt_trichotomy A.length x.length with hlt | heq | hgt
  · have hcomp : hitHead A pw (x ++ new) = hitHead A pw (x ++ old) := by
      unfold hitHead
      rw [startsCI_append_short A x (le_of_lt hlt) new,
          startsCI_append_short A x (le_of_lt hlt) old,
          bAft_local hlt new, bAft_local hlt old]
    rw [hcomp, hold]
  · cases hsx : startsCI A x with
    | false =>
      apply hitHead_false_of_starts
      rw [startsCI_append_short A x (le_of_eq heq) new, hsx]
    | true =>
      exfalso
      have hle : lows x = lows A := lows_eq_of_len hsx heq.symm
      have := wordC_lows_last hle
      rw [hlast, hlastA] at this
      exact Bool.false_ne_true this
  · apply hitHead_false_of_starts
    cases hsx : startsCI A (x ++ new) with
    | false => rfl
    | true =>
      exfalso
      obtain ⟨hA1, hA2⟩ := startsCI_split (le_of_lt hgt) hsx
      have hlx : wordC ((A.take x.length).getLastD ' ') = false := by
        rw [wordC_lows_last hA1]
        exact hlast
      have hxpos : 1 ≤ x.length := by
        cases x
        · exact absurd rfl hx
        · simp
      have htake_ne : A.take x.length ≠ [] := by
        intro h
        have h2 := congrArg List.length h
        rw [List.length_take] at h2
        simp only [List.length_nil] at h2
        omega
      rcases hside with hallw | hnew
      · rw [allW_take_last hallw htake_ne] at hlx
        exact Bool.true_eq_false.mp hlx
      · have hdrop_ne : A.drop x.length ≠ [] := by
          intro h
          have := congrArg List.length h
          simp [List.length_drop] at this
          omega
        have hA2head : wordC ((A.drop x.length).headD ' ') = true := by
          apply noAdj_cross (A.take x.length) (A.drop x.length) _ hdrop_ne hlx htake_ne
          rw [List.take_append_drop]
          exact hadj
        have hnlen := startsCI_length hA2
        cases hnc : new with
        | nil =>
          subst hnc
          exact hdrop_ne (List.eq_nil_of_length_eq_zero
            (Nat.le_zero.mp (by simpa using hnlen)))
        | cons b bs =>
          subst hnc
          rcases hnew with h | h
          · simp at h
          · cases hd : A.drop x.length with
            | nil => exact hdrop_ne hd
            | cons a2 as2 =>
              rw [hd] at hA2
              rw [startsCI, Bool.and_eq_true, beq_iff_eq] at hA2
              have hww := wordC_eq_of_lowC hA2.1
              rw [hd] at hA2head
              simp only [List.headD] at hA2head h
              rw [hA2head, h] at hww
              exact Bool.true_eq_false.mp hww

theorem noHitIn_transfer {A old new : Str} (hA : wShaped A = true)
    (hside : A.all wordC = true ∨ (new = [] ∨ wordC (new.headD ' ') = false)) :
    ∀ (u : Str) (pw : Bool),
      noHitIn A pw u old = true → (u = [] ∨ wordC (u.getLastD ' ') = false) →
      noHitIn A pw u new = true := by
  intro u
  induction u with
  | nil => intro pw _ _; rfl
  | cons c u2 ih =>
    intro pw hold hlast
    have hlast2 : wordC ((c :: u2).getLastD ' ') = false := by
      rcases hlast with h | h
      · exact absurd h (by simp)
      · exact h
    rw [noHitIn, Bool.and_eq_true] at hold
    rw [noHitIn, Bool.and_eq_true]
    obtain ⟨hold1, hold2⟩ := hold
    refine ⟨?_, ?_⟩
    · rw [Bool.not_eq_true']
      rw [Bool.not_eq_true'] at hold1
      exact hitHead_transfer hA hside (by simp) hlast2 hold1
    · apply ih (wordC c) hold2
      cases u2 with
      | nil => exact Or.inl rfl
      | cons d u3 =>
        right
        have he : (c :: d :: u3).getLastD ' ' = (d :: u3).getLastD ' ' := by
          show (d :: u3).getLastD c = (d :: u3).getLastD ' '
          exact getLastD_indep (by simp) c ' '
        rw [← he]
        exact hlast2

theorem bAft_ctx_eq {A x t2 : Str} (heq : A.length = x.length)
    (hlastA : wordC (A.getLastD ' ') = true)
    (ht : t2 = [] ∨ wordC (t2.headD ' ') = false) :
    bAft A (x ++ t2) = bAft A x := by
  unfold bAft
  rw [List.drop_left' heq.symm]
  rw [show x.drop A.length = ([] : Str) from by rw [heq]; exact List.drop_length x]
  cases t2 with
  | nil => rfl
  | cons h hs =>
    rcases ht with ht | ht
    · simp at ht
    · simp only [List.headD] at ht
      show (wordC (A.getLastD ' ') != wordC h) = wordC (A.getLastD ' ')
      rw [hlastA, ht]
      rfl

/-- An all-word pattern absent from `r` (as a standalone text) cannot
start a match inside `r` in a continuation context that is empty or
starts non-word. -/
theorem noHitIn_rep {A t2 : Str} (hA : wShaped A = true)
    (hallw : A.all wordC = true)
    (ht : t2 = [] ∨ wordC (t2.headD ' ') = false) :
    ∀ (r : Str) (pw : Bool), occG A pw r = false → noHitIn A pw r t2 = true := by
  obtain ⟨hne, hhead, hlastA, _⟩ := wShaped_parts hA
  intro r
  induction r with
  | nil => intro pw _; rfl
  | cons a as ih =>
    intro pw hocc
    rw [occG] at hocc
    have hocc1 : hitHead A pw (a :: as) = false := by
      cases h : hitHead A pw (a :: as)
      · rfl
      · rw [h] at hocc; simp at hocc
    have hocc2 : occG A (wordC a) as = false := by
      cases h : occG A (wordC a) as
      · rfl
      · rw [h] at hocc; simp at hocc
    rw [noHitIn, Bool.and_eq_true]
    refine ⟨?_, ih (wordC a) hocc2⟩
    rw [Bool.not_eq_true']
    rcases Nat.lt_trichotomy A.length (a :: as).length with hlt | heq | hgt
    · have hcomp : hitHead A pw ((a :: as) ++ t2) = hitHead A pw (a :: as) := by
        unfold hitHead
        rw [startsCI_append_short A (a :: as) (le_of_lt hlt) t2, bAft_local hlt t2]
      show hitHead A pw ((a :: as) ++ t2) = false
      rw [hcomp]
      exact hocc1
    · have hcomp : hitHead A pw ((a :: as) ++ t2) = hitHead A pw (a :: as) := by
        unfold hitHead
        rw [startsCI_append_short A (a :: as) (le_of_eq heq) t2, bAft_ctx_eq heq hlastA ht]
      show hitHead A pw ((a :: as) ++ t2) = false
      rw [hcomp]
      exact hocc1
    · apply hitHead_false_of_starts
      cases hsx : startsCI A ((a :: as) ++ t2) with
      | false => exact hsx
      | true =>
        exfalso
        obtain ⟨_, hA2⟩ := startsCI_split (le_of_lt hgt) hsx
        have hdrop_ne : A.drop (a :: as).length ≠ [] := by
          intro h
          have h2 := congrArg List.length h
          simp only [List.length_drop, List.length_nil] at h2
          omega
        have hA2head : wordC ((A.drop (a :: as).length).headD ' ') = true := by
          have hmem := getLastD_mem hdrop_ne ' '
          cases hd : A.drop (a :: as).length with
          | nil => exact absurd hd hdrop_ne
          | cons a2 as2 =>
            have : a2 ∈ A := by
              have : a2 ∈ A.drop (a :: as).length := by rw [hd]; simp
              exact List.mem_of_mem_drop this
            simp only [List.headD]
            exact List.all_eq_true.mp hallw _ this
        have hnlen := startsCI_length hA2
        cases hnc : t2 with
        | nil =>
          subst hnc
          exact hdrop_ne (List.eq_nil_of_length_eq_zero
            (Nat.le_zero.mp (by simpa using hnlen)))
        | cons b bs =>
          subst hnc
          rcases ht with h | h
          · simp at h
          · cases hd : A.drop (a :: as).length with
            | nil => exact hdrop_ne hd
            | cons a2 as2 =>
              rw [hd] at hA2
              rw [startsCI, Bool.and_eq_true, beq_iff_eq] at hA2
              have hww := wordC_eq_of_lowC hA2.1
              rw [hd] at hA2head
              simp only [List.headD] at hA2head h
              rw [hA2head, h] at hww
              exact Bool.true_eq_false.mp hww

theorem pwEnd_false_cases {pw : Bool} {u : Str} (h : pwEnd pw u = false) :
    (u = [] ∨ wordC (u.getLastD ' ') = false) ∧ (u = [] → pw = false) := by
  cases u with
  | nil => exact ⟨Or.inl rfl, fun _ => h⟩
  | cons c cs => exact ⟨Or.inr h, fun he => by simp at he⟩

theorem or_false_parts {a b : Bool} (h : (a || b) = false) : a = false ∧ b = false := by
  cases a <;> cases b <;> simp_all

theorem pwEnd_of_wShaped {r : Str} (hw : wShaped r = true) (b : Bool) :
    pwEnd b r = true := by
  obtain ⟨hne, _, hl, _⟩ := wShaped_parts hw
  cases r with
  | nil => simp [List.isEmpty] at hne
  | cons c cs => exact hl

/-- Elimination: after a full pass of the scanner, the pattern no longer
occurs.  The replacement is empty (weak-word deletion), or — for an
all-word pattern — a word-edged string not containing the pattern
(spelling correction). -/
theorem sdec_elim {pat rep : Str} (hp : wShaped pat = true)
    (hrep : rep = [] ∨
      (wShaped rep = true ∧ pat.all wordC = true ∧ occG pat false rep = false)) :
    ∀ {pw : Bool} {s t : Str}, SDec pat rep pw s t → occG pat pw t = false := by
  obtain ⟨hne, hhead, hlastA, hadj⟩ := wShaped_parts hp
  intro pw s t h
  induction h with
  | id _ _ hocc => exact hocc
  | hit pw2 u m v t2 hno hhit hlen hsub ih =>
    have hpw0 : pwEnd pw2 u = false := hitHead_pw_false hhit hhead
    obtain ⟨hulast, _⟩ := pwEnd_false_cases hpw0
    have hparts := hitHead_parts hhit
    have hv : v = [] ∨ wordC (v.headD ' ') = false :=
      bAft_after_match hlen hparts.2.2.2 hlastA
    have hth : t2 = [] ∨ wordC (t2.headD ' ') = false := sdec_head hhead hsub hv
    rw [hlastA] at ih
    have h2 : occG pat false (rep ++ t2) = false := by
      rw [occG_append]
      rcases hrep with hrep | ⟨hwr, hallw, hoccr⟩
      · subst hrep
        have : occG pat false t2 = occG pat true t2 := occG_nwhead hhead hth false true
        show (!(noHitIn pat false [] t2) || occG pat (pwEnd false []) t2) = false
        rw [show noHitIn pat false [] t2 = true from rfl,
          show pwEnd false ([] : Str) = false from rfl, this, ih]
        rfl
      · rw [noHitIn_rep hp hallw hth rep false hoccr, pwEnd_of_wShaped hwr false, ih]
        rfl
    have h1 : noHitIn pat pw2 u (rep ++ t2) = true := by
      apply noHitIn_transfer hp _ u pw2 hno hulast
      rcases hrep with hrep | ⟨_, hallw, _⟩
      · subst hrep
        right
        simpa using hth
      · exact Or.inl hallw
    rw [occG_append, hpw0, h1, h2]
    rfl

/-- Preservation: a pass for pattern `B` cannot re-introduce an absent
pattern `A`.  The replacement is empty, or `A` is all-word and absent
from the word-edged replacement. -/
theorem sdec_pres {A B rep : Str} (hA : wShaped A = true) (hB : wShaped B = true)
    (hside : rep = [] ∨
      (A.all wordC = true ∧ wShaped rep = true ∧ occG A false rep = false)) :
    ∀ {pw : Bool} {s t : Str}, SDec B rep pw s t →
      occG A pw s = false → occG A pw t = false := by
  intro pw s t h
  induction h with
  | id _ _ _ => intro hs; exact hs
  | hit pw2 u m v t2 hno hhit hlen hsub ih =>
    intro hs
    have hBhead : wordC (B.headD ' ') = true := (wShaped_parts hB).2.1
    have hBlast : wordC (B.getLastD ' ') = true := (wShaped_parts hB).2.2.1
    have hAhead : wordC (A.headD ' ') = true := (wShaped_parts hA).2.1
    have hBparts := hitHead_parts hhit
    have hpw0 : pwEnd pw2 u = false := hitHead_pw_false hhit hBhead
    obtain ⟨hulast, _⟩ := pwEnd_false_cases hpw0
    have hv : v = [] ∨ wordC (v.headD ' ') = false :=
      bAft_after_match hlen hBparts.2.2.2 hBlast
    have hth : t2 = [] ∨ wordC (t2.headD ' ') = false := sdec_head hBhead hsub hv
    have hm_ne : m ≠ [] := by
      intro he
      have := patLen_pos hhit
      rw [he] at hlen
      simp at hlen
      omega
    have hmlast : wordC (m.getLastD ' ') = true := by
      have hml : lows m = lows B := lows_eq_of_match hlen hBparts.2.2.1
      rw [wordC_lows_last hml]
      exact hBlast
    rw [occG_append] at hs
    obtain ⟨hs1, hs2⟩ := or_false_parts hs
    have hs1' : noHitIn A pw2 u (m ++ v) = true := by
      rwa [Bool.not_eq_false'] at hs1
    rw [hpw0, occG_append] at hs2
    obtain ⟨_, hs4⟩ := or_false_parts hs2
    have hpwm : pwEnd false m = true := by
      cases m with
      | nil => exact absurd rfl hm_ne
      | cons c cs => exact hmlast
    rw [hpwm] at hs4
    rw [hBlast] at ih
    have ihv : occG A true t2 = false := ih hs4
    have h1 : noHitIn A pw2 u (rep ++ t2) = true := by
      apply noHitIn_transfer hA _ u pw2 hs1' hulast
      rcases hside with hrep | ⟨hallw, _, _⟩
      · subst hrep
        right
        simpa using hth
      · exact Or.inl hallw
    have h2 : occG A false (rep ++ t2) = false := by
      rw [occG_append]
      rcases hside with hrep | ⟨hallw, hwr, hoccr⟩
      · subst hrep
        have hbr : occG A false t2 = occG A true t2 := occG_nwhead hAhead hth false true
        show (!(noHitIn A false [] t2) || occG A (pwEnd false []) t2) = false
        rw [show noHitIn A false [] t2 = true from rfl,
          show pwEnd false ([] : Str) = false from rfl, hbr, ihv]
        rfl
      · rw [noHitIn_rep hA hallw hth rep false hoccr, pwEnd_of_wShaped hwr false, ihv]
        rfl
    rw [occG_append, hpw0, h1, h2]
    rfl

/-- Shape conditions on one spelling lexicon entry. -/
def SpellEntryOK (e : Str × Str) : Bool :=
  wShaped e.1 && e.1.all wordC && wShaped e.2

/-- No lexicon correction contains any lexicon mistake as a
case-insensitive whole word. -/
def SpellCrossOK (entries : List (Str × Str)) : Bool :=
  entries.all (fun a => entries.all (fun b => !(occG a.1 false b.2)))

theorem spellEntryOK_parts {e : Str × Str} (h : SpellEntryOK e = true) :
    wShaped e.1 = true ∧ e.1.all wordC = true ∧ wShaped e.2 = true := by
  unfold SpellEntryOK at h
  simp only [Bool.and_eq_true] at h
  exact ⟨h.1.1, h.1.2, h.2⟩

theorem spellStep_elim {e : Str × Str} (hp : wShaped e.1 = true)
    (hrep : wShaped e.2 = true ∧ e.1.all wordC = true ∧ occG e.1 false e.2 = false) :
    ∀ acc, occG e.1 false (spellStep acc e).1 = false := by
  intro acc
  unfold spellStep
  split
  · show occG e.1 false (scanW e.1 e.2 false acc.1).1 = false
    exact sdec_elim hp (Or.inr ⟨hrep.1, hrep.2.1, hrep.2.2⟩)
      (scanW_sdec e.1 e.2 acc.1.length acc.1 (le_refl _) false)
  · rename_i hocc
    rwa [Bool.not_eq_true] at hocc

theorem spellStep_pres {A : Str} {e : Str × Str} (hA : wShaped A = true)
    (hB : wShaped e.1 = true)
    (hc : A.all wordC = true ∧ wShaped e.2 = true ∧ occG A false e.2 = false) :
    ∀ acc, occG A false acc.1 = false → occG A false (spellStep acc e).1 = false := by
  intro acc hacc
  unfold spellStep
  split
  · show occG A false (scanW e.1 e.2 false acc.1).1 = false
    exact sdec_pres hA hB (Or.inr hc)
      (scanW_sdec e.1 e.2 acc.1.length acc.1 (le_refl _) false) hacc
  · exact hacc

theorem spell_fold_inv :
    ∀ (entries : List (Str × Str)) (acc : Str × List (Str × Str)),
      entries.all SpellEntryOK = true →
      (∀ a ∈ entries, ∀ b ∈ entries, occG a.1 false b.2 = false) →
      (∀ A : Str, wShaped A = true → A.all wordC = true →
          (∀ b ∈ entries, occG A false b.2 = false) →
          occG A false acc.1 = false →
          occG A false (entries.foldl spellStep acc).1 = false) ∧
      (∀ e ∈ entries, occG e.1 false (entries.foldl spellStep acc).1 = false) := by
  intro entries
  induction entries with
  | nil =>
    intro acc _ _
    exact ⟨fun A _ _ _ h => h, by simp⟩
  | cons e rest ih =>
    intro acc hok hcross
    rw [List.all_cons, Bool.and_eq_true] at hok
    obtain ⟨hoke, hokr⟩ := hok
    obtain ⟨hpe, hwe, hre⟩ := spellEntryOK_parts hoke
    have hcr : ∀ a ∈ rest, ∀ b ∈ rest, occG a.1 false b.2 = false := by
      intro a ha b hb
      exact hcross a (List.mem_cons_of_mem _ ha) b (List.mem_cons_of_mem _ hb)
    have ihr := ih (spellStep acc e) hokr hcr
    rw [List.foldl_cons]
    constructor
    · intro A hA hAw hAb hAacc
      apply ihr.1 A hA hAw (fun b hb => hAb b (List.mem_cons_of_mem _ hb))
      exact spellStep_pres hA hpe
        ⟨hAw, hre, hAb e (List.mem_cons_self _ _)⟩ acc hAacc
    · intro f hf
      rcases List.mem_cons.mp hf with rfl | hf'
      · apply ihr.1 f.1 hpe hwe
        · intro b hb
          exact hcross f (List.mem_cons_self _ _) b (List.mem_cons_of_mem _ hb)
        · exact spellStep_elim hpe
            ⟨hre, hwe, hcross f (List.mem_cons_self _ _) f (List.mem_cons_self _ _)⟩ acc
      · exact ihr.2 f hf'

theorem spell_fold_skip :
    ∀ (entries : List (Str × Str)) (txt : Str) (l : List (Str × Str)),
      (∀ e ∈ entries, occG e.1 false txt = false) →
      entries.foldl spellStep (txt, l) = (txt, l) := by
  intro entries
  induction entries with
  | nil => intro txt l _; rfl
  | cons e rest ih =>
    intro txt l habs
    rw [List.foldl_cons]
    have hstep : spellStep (txt, l) e = (txt, l) := by
      unfold spellStep
      rw [if_neg]
      rw [habs e (List.mem_cons_self _ _)]
      simp
    rw [hstep]
    exact ih txt l (fun f hf => habs f (List.mem_cons_of_mem _ hf))

set_option maxHeartbeats 4000000 in
theorem spell_cross_ok : SpellCrossOK COMMON_SPELLING_MISTAKES = true := by decide

theorem spell_cross_forall :
    ∀ a ∈ COMMON_SPELLING_MISTAKES, ∀ b ∈ COMMON_SPELLING_MISTAKES,
      occG a.1 false b.2 = false := by
  have h := spell_cross_ok
  unfold SpellCrossOK at h
  rw [List.all_eq_true] at h
  intro a ha b hb
  have h2 := h a ha
  rw [List.all_eq_true] at h2
  have := h2 b hb
  rwa [Bool.not_eq_true'] at this

/-- C2: spelling correction is idempotent — correcting an already
corrected text changes nothing and reports no corrections.  After the
first pass no lexicon mistake occurs as a case-insensitive whole word
(each entry's pass removes it and later passes cannot re-introduce any),
so every guard of the second pass fails. -/
theorem c2_spelling_idempotent (text : Str) :
    check_spelling (check_spelling text).1 = ((check_spelling text).1, []) := by
  unfold check_spelling
  apply spell_fold_skip
  intro e he
  exact (spell_fold_inv COMMON_SPELLING_MISTAKES (text, []) (by decide)
    spell_cross_forall).2 e he

theorem getLastD_append2 {y : Str} (hy : y ≠ []) :
    ∀ (x : Str) (d : Char), (x ++ y).getLastD d = y.getLastD d := by
  intro x
  induction x with
  | nil => intro d; rfl
  | cons c cs ih =>
    intro d
    show ((c :: cs) ++ y).getLastD d = y.getLastD d
    have h2 : cs ++ y ≠ [] := by
      intro h
      exact hy (List.append_eq_nil.mp h).2
    rw [List.cons_append, List.getLastD_cons, getLastD_indep h2 c d]
    exact ih d

theorem headD_lows {x : Str} (hx : x ≠ []) :
    (lows x).headD 0 = lowC (x.headD ' ') := by
  cases x with
  | nil => exact absurd rfl hx
  | cons c cs => rfl

theorem prefix_take_eq {l1 l2 : List Nat} (h : l1 <+: l2) :
    l2.take l1.length = l1 := by
  obtain ⟨r, rfl⟩ := h
  exact List.take_left _ _

/-- The three ways the case-folded pattern `lp` can fit against a
case-folded deleted match `ℓ` at its start: exactly, up to an interior
non-word position of `ℓ`, or covering all of `ℓ` with the pattern's own
non-word character at the junction. -/
def fitBad (lp l2 : List Nat) : Bool :=
  (lp == l2) ||
  (List.range l2.length).any (fun j =>
    !wordN ((l2.drop j).headD 0) && lp == l2.take j) ||
  (decide (l2.length < lp.length) && (lp.take l2.length == l2) &&
    !wordN ((lp.drop l2.length).headD 0))

/-- A pattern matching at the start of `mm ++ v` with a trailing word
boundary, where `v` is empty or starts non-word, must fit `mm` in one of
the `fitBad` ways. -/
theorem match_fit {P mm v : Str} (_hPne : P ≠ [])
    (hs : startsCI P (mm ++ v) = true)
    (hb : (mm ++ v).drop P.length = [] ∨
      wordC (((mm ++ v).drop P.length).headD ' ') = false)
    (hv : v = [] ∨ wordC (v.headD ' ') = false) :
    fitBad (lows P) (lows mm) = true := by
  unfold fitBad
  rcases Nat.lt_trichotomy P.length mm.length with hlt | heq | hgt
  · -- pattern ends strictly inside mm: interior non-word at position |P|
    have hshort : startsCI P mm = true := by
      rw [← startsCI_append_short P mm (le_of_lt hlt) v]
      exact hs
    have hpre : lows P <+: lows mm := startsCI_lows.mp hshort
    have htake : (lows mm).take P.length = lows P := by
      have := prefix_take_eq hpre
      rwa [lows_length] at this
    have hdropne : mm.drop P.length ≠ [] := by
      intro h
      have := congrArg List.length h
      simp only [List.length_drop, List.length_nil] at this
      omega
    have hdape : (mm ++ v).drop P.length = mm.drop P.length ++ v :=
      List.drop_append_of_le_length (le_of_lt hlt)
    have hnw : wordC ((mm.drop P.length ++ v).headD ' ') = false := by
      rcases hb with hb | hb
      · rw [hdape] at hb
        exact absurd hb (by
          intro h
          exact hdropne (List.append_eq_nil.mp h).1)
      · rwa [hdape] at hb
    have hheads : (mm.drop P.length ++ v).headD ' ' = (mm.drop P.length).headD ' ' := by
      cases hd : mm.drop P.length with
      | nil => exact absurd hd hdropne
      | cons e es => rfl
    rw [hheads] at hnw
    apply Bool.or_eq_true_iff.mpr
    left
    apply Bool.or_eq_true_iff.mpr
    right
    rw [List.any_eq_true]
    refine ⟨P.length, List.mem_range.mpr (by rw [lows_length]; exact hlt), ?_⟩
    rw [Bool.and_eq_true]
    constructor
    · rw [Bool.not_eq_true']
      rw [show (lows mm).drop P.length = lows (mm.drop P.length) from (lows_drop mm P.length).symm]
      rw [headD_lows hdropne]
      exact hnw
    · rw [beq_iff_eq, htake]
  · -- pattern covers mm exactly
    have hshort : startsCI P mm = true := by
      rw [← startsCI_append_short P mm (le_of_eq heq) v]
      exact hs
    have hpre : lows P <+: lows mm := startsCI_lows.mp hshort
    have : lows P = lows mm :=
      hpre.eq_of_length (by rw [lows_length, lows_length]; exact heq)
    apply Bool.or_eq_true_iff.mpr
    left
    apply Bool.or_eq_true_iff.mpr
    left
    rw [beq_iff_eq]
    exact this
  · -- pattern strictly covers mm and continues into v
    obtain ⟨hA1, hA2⟩ := startsCI_split (le_of_lt hgt) hs
    have hdropne : P.drop mm.length ≠ [] := by
      intro h
      have := congrArg List.length h
      simp only [List.length_drop, List.length_nil] at this
      omega
    have hvne : v ≠ [] := by
      intro h
      subst h
      have := startsCI_length hA2
      simp only [List.length_nil, Nat.le_zero] at this
      exact hdropne (List.eq_nil_of_length_eq_zero this)
    have hvh : wordC (v.headD ' ') = false := by
      rcases hv with h | h
      · exact absurd h hvne
      · exact h
    have hPj : wordC ((P.drop mm.length).headD ' ') = false := by
      cases hdp : P.drop mm.length with
      | nil => exact absurd hdp hdropne
      | cons a2 as2 =>
        cases hvc : v with
        | nil => exact absurd hvc hvne
        | cons b bs =>
          rw [hdp, hvc] at hA2
          have heq1 : lowC a2 = lowC b := by
            have hA2' : ((lowC a2 == lowC b) && startsCI as2 bs) = true := hA2
            rw [Bool.and_eq_true, beq_iff_eq] at hA2'
            exact hA2'.1
          show wordC a2 = false
          rw [wordC_eq_of_lowC heq1]
          rw [hvc] at hvh
          exact hvh
    apply Bool.or_eq_true_iff.mpr
    right
    rw [Bool.and_eq_true, Bool.and_eq_true]
    refine ⟨⟨by rw [decide_eq_true_iff, lows_length, lows_length]; exact hgt, ?_⟩, ?_⟩
    · rw [beq_iff_eq, lows_length, ← lows_take]
      exact hA1
    · rw [Bool.not_eq_true', lows_length]
      rw [show (lows P).drop mm.length = lows (P.drop mm.length) from (lows_drop P mm.length).symm]
      rw [headD_lows hdropne]
      exact hPj

theorem pwEnd_ne {u : Str} (hu : u ≠ []) (pw : Bool) :
    pwEnd pw u = wordC (u.getLastD ' ') := by
  cases u with
  | nil => exact absurd rfl hu
  | cons c cs => rfl

/-- The trailing-boundary fact of a word-final pattern: the text after
the matched length is empty or starts non-word. -/
theorem bAft_fact {pat s : Str} (hb : bAft pat s = true)
    (hl : wordC (pat.getLastD ' ') = true) :
    s.drop pat.length = [] ∨ wordC ((s.drop pat.length).headD ' ') = false := by
  unfold bAft at hb
  cases hd : s.drop pat.length with
  | nil => exact Or.inl rfl
  | cons d ds =>
    right
    rw [hd, hl] at hb
    simp only [List.headD]
    simp only [bne_iff_ne, ne_eq] at hb
    cases hw : wordC d
    · rfl
    · rw [hw] at hb; simp at hb

theorem drop_append_ge :
    ∀ (x : Str) (y : Str) (n : Nat), x.length ≤ n →
      (x ++ y).drop n = y.drop (n - x.length) := by
  intro x
  induction x with
  | nil => intro y n _; simp
  | cons c cs ih =>
    intro y n h
    cases n with
    | zero => simp at h
    | succ k =>
      show (cs ++ y).drop k = y.drop (k + 1 - (cs.length + 1))
      rw [ih y k (by simpa using h)]
      congr 1
      omega

theorem hitHead_local {pat x : Str} (hlt : pat.length < x.length)
    (y z : Str) (pw : Bool) :
    hitHead pat pw (x ++ y) = hitHead pat pw (x ++ z) := by
  unfold hitHead
  rw [startsCI_append_short pat x (le_of_lt hlt) y,
    startsCI_append_short pat x (le_of_lt hlt) z,
    bAft_local hlt y, bAft_local hlt z]

theorem noHitIn_false_split {pat : Str} :
    ∀ {u : Str} {pw : Bool} {ctx : Str}, noHitIn pat pw u ctx = false →
      ∃ u1 u2, u = u1 ++ u2 ∧ u2 ≠ [] ∧
        hitHead pat (pwEnd pw u1) (u2 ++ ctx) = true := by
  intro u
  induction u with
  | nil => intro pw ctx h; simp [noHitIn] at h
  | cons c cs ih =>
    intro pw ctx h
    rw [noHitIn, Bool.and_eq_false_iff] at h
    rcases h with h | h
    · have h' : hitHead pat pw (c :: (cs ++ ctx)) = true := by
        cases hx : hitHead pat pw (c :: (cs ++ ctx))
        · rw [hx] at h; simp at h
        · rfl
      exact ⟨[], c :: cs, rfl, by simp, h'⟩
    · obtain ⟨u1, u2, he, hne, hh⟩ := ih h
      refine ⟨c :: u1, u2, by rw [he]; rfl, hne, ?_⟩
      rw [pwEnd_cons]
      exact hh

theorem noHitIn_false_build {pat : Str} :
    ∀ (u1 : Str) {pw : Bool} (u2 ctx : Str), u2 ≠ [] →
      hitHead pat (pwEnd pw u1) (u2 ++ ctx) = true →
      noHitIn pat pw (u1 ++ u2) ctx = false := by
  intro u1
  induction u1 with
  | nil =>
    intro pw u2 ctx hne hh
    cases u2 with
    | nil => exact absurd rfl hne
    | cons c cs =>
      show (!(hitHead pat pw (c :: (cs ++ ctx))) && _) = false
      have : hitHead pat pw (c :: (cs ++ ctx)) = true := hh
      rw [this]
      rfl
  | cons c cs ih =>
    intro pw u2 ctx hne hh
    show (!(hitHead pat pw (c :: ((cs ++ u2) ++ ctx))) &&
      noHitIn pat (wordC c) (cs ++ u2) ctx) = false
    rw [ih u2 ctx hne (by rw [← pwEnd_cons]; exact hh)]
    rw [Bool.and_false]

/-- Static cross-pattern exclusion: the case-folded `A` never fits (in
the `fitBad` senses) the whole of `B`, the part of `B` after one of its
non-word characters, and no suffix of `A` past a non-word character of
`A` fits the whole of `B`. -/
def noCross (A B : Str) : Bool :=
  !(fitBad (lows A) (lows B)) &&
  (List.range B.length).all (fun i =>
    wordC ((B.take (i+1)).getLastD ' ') ||
      !(fitBad (lows A) ((lows B).drop (i+1)))) &&
  (List.range A.length).all (fun i =>
    wordC ((A.take (i+1)).getLastD ' ') ||
      !(fitBad (lows (A.drop (i+1))) (lows B)))

theorem noCross_parts {A B : Str} (h : noCross A B = true) :
    fitBad (lows A) (lows B) = false ∧
    (∀ i, i < B.length → wordC ((B.take (i+1)).getLastD ' ') = false →
      fitBad (lows A) ((lows B).drop (i+1)) = false) ∧
    (∀ i, i < A.length → wordC ((A.take (i+1)).getLastD ' ') = false →
      fitBad (lows (A.drop (i+1))) (lows B) = false) := by
  unfold noCross at h
  rw [Bool.and_eq_true, Bool.and_eq_true] at h
  obtain ⟨⟨h1, h2⟩, h3⟩ := h
  refine ⟨by simpa using h1, ?_, ?_⟩
  · intro i hi hw
    have := List.all_eq_true.mp h2 i (List.mem_range.mpr hi)
    rw [hw] at this
    simpa using this
  · intro i hi hw
    have := List.all_eq_true.mp h3 i (List.mem_range.mpr hi)
    rw [hw] at this
    simpa using this

/-- True-occurrence preservation: a deletion pass for `B` (empty
replacement) cannot destroy an occurrence of a different, statically
non-crossing pattern `A`. -/
theorem sdec_keep {A B : Str} (hA : wShaped A = true) (hB : wShaped B = true)
    (hnc : noCross A B = true) :
    ∀ {pw : Bool} {s t : Str}, SDec B [] pw s t →
      occG A pw s = true → occG A pw t = true := by
  have hAp := wShaped_parts hA
  have hBp := wShaped_parts hB
  have hAne : A ≠ [] := by
    intro hz
    rw [hz] at hAp
    simp [List.isEmpty] at hAp
  have hncp := noCross_parts hnc
  intro pw s t hsd
  induction hsd with
  | id _ _ _ => intro h; exact h
  | hit pw2 u m v t2 hno hhit hlen hsub ih =>
    intro hs
    simp only [List.nil_append]
    have hhp := hitHead_parts hhit
    have hpwu : pwEnd pw2 u = false := hitHead_pw_false hhit hBp.2.1
    have hlm : lows m = lows B := lows_eq_of_match hlen hhp.2.2.1
    have hv : v = [] ∨ wordC (v.headD ' ') = false :=
      bAft_after_match hlen hhp.2.2.2 hBp.2.2.1
    rw [occG_append, Bool.or_eq_true] at hs
    rw [occG_append, Bool.or_eq_true]
    rcases hs with hs | hs
    · -- a match of A already starts inside the prefix u
      have hnf : noHitIn A pw2 u (m ++ v) = false := by
        cases hn : noHitIn A pw2 u (m ++ v)
        · rfl
        · rw [hn] at hs; simp at hs
      obtain ⟨u1, u2, hu, hne, hhit2⟩ := noHitIn_false_split hnf
      have hh2p := hitHead_parts hhit2
      have hune : u ≠ [] := by
        rw [hu]
        intro hz
        exact hne (List.append_eq_nil.mp hz).2
      have hu2last : wordC (u2.getLastD ' ') = false := by
        rw [← getLastD_append2 hne u1 ' ', ← hu, ← pwEnd_ne hune pw2]
        exact hpwu
      rcases Nat.lt_trichotomy A.length u2.length with hlt | heq | hgt
      · -- the A-match sits strictly inside u2: it survives verbatim
        left
        rw [hu, noHitIn_false_build u1 u2 t2 hne
          (by rw [hitHead_local hlt t2 (m ++ v)]; exact hhit2)]
        rfl
      · -- A exactly covers u2: impossible, u2 ends non-word
        exfalso
        have hsu : startsCI A u2 = true := by
          rw [← startsCI_append_short A u2 (le_of_eq heq) (m ++ v)]
          exact hh2p.2.2.1
        have hlu : lows u2 = lows A := lows_eq_of_len hsu heq.symm
        have h1 : wordC (u2.getLastD ' ') = true := by
          rw [wordC_lows_last hlu]
          exact hAp.2.2.1
        rw [h1] at hu2last
        simp at hu2last
      · -- A crosses from u2 into the B-match: statically excluded
        exfalso
        obtain ⟨hA1, hA2⟩ := startsCI_split (le_of_lt hgt) hh2p.2.2.1
        have hPne : A.drop u2.length ≠ [] := by
          intro hz
          have := congrArg List.length hz
          simp only [List.length_drop, List.length_nil] at this
          omega
        have hb0 := bAft_fact hh2p.2.2.2 hAp.2.2.1
        rw [drop_append_ge u2 (m ++ v) A.length (le_of_lt hgt)] at hb0
        rw [show A.length - u2.length = (A.drop u2.length).length from
          (List.length_drop u2.length A).symm] at hb0
        have hfit := match_fit hPne hA2 hb0 hv
        rw [hlm] at hfit
        have hu2pos : 1 ≤ u2.length := List.length_pos.mpr hne
        have hstep : u2.length - 1 + 1 = u2.length := by omega
        have hcond : wordC ((A.take (u2.length - 1 + 1)).getLastD ' ') = false := by
          rw [hstep, wordC_lows_last hA1]
          exact hu2last
        have hexc := hncp.2.2 (u2.length - 1) (by omega) hcond
        rw [hstep] at hexc
        rw [hexc] at hfit
        exact Bool.false_ne_true hfit
    · -- the A-match is at or after the B-match
      rw [hpwu] at hs
      rw [occG_append, Bool.or_eq_true] at hs
      rcases hs with hs | hs
      · -- the A-match starts inside the matched text m: excluded
        exfalso
        have hnf : noHitIn A false m v = false := by
          cases hn : noHitIn A false m v
          · rfl
          · rw [hn] at hs; simp at hs
        obtain ⟨m1, m2, hm, hne2, hhit3⟩ := noHitIn_false_split hnf
        have hh3p := hitHead_parts hhit3
        have hb3 := bAft_fact hh3p.2.2.2 hAp.2.2.1
        have hfit := match_fit hAne hh3p.2.2.1 hb3 hv
        by_cases hm1e : m1 = []
        · rw [hm1e, List.nil_append] at hm
          rw [← hm, hlm] at hfit
          rw [hncp.1] at hfit
          exact Bool.false_ne_true hfit
        · have hm1last : wordC (m1.getLastD ' ') = false := by
            rw [← pwEnd_ne hm1e false]
            exact hitHead_pw_false hhit3 hAp.2.1
          have hmlen : m.length = m1.length + m2.length := by
            rw [hm, List.length_append]
          have hm2pos : 1 ≤ m2.length := List.length_pos.mpr hne2
          have hm1pos : 1 ≤ m1.length := List.length_pos.mpr hm1e
          have hmsplit : lows m = lows m1 ++ lows m2 := by
            rw [hm, lows_append]
          have hdrop2 : (lows B).drop m1.length = lows m2 := by
            rw [← hlm, hmsplit, List.drop_left' (by rw [lows_length])]
          have htake2 : (lows B).take m1.length = lows m1 := by
            rw [← hlm, hmsplit, List.take_left' (by rw [lows_length])]
          have hstep : m1.length - 1 + 1 = m1.length := by omega
          have hcond : wordC ((B.take (m1.length - 1 + 1)).getLastD ' ') = false := by
            rw [hstep]
            have hbt : lows (B.take m1.length) = lows m1 := by
              rw [lows_take, htake2]
            rw [wordC_lows_last hbt]
            exact hm1last
          have hexc := hncp.2.1 (m1.length - 1)
            (by rw [← hlen]; omega) hcond
          rw [hstep, hdrop2] at hexc
          rw [hexc] at hfit
          exact Bool.false_ne_true hfit
      · -- the A-match is inside v: use the induction hypothesis
        right
        have hmne : m ≠ [] := by
          intro hz
          rw [hz] at hlen
          have hBne : B ≠ [] := by
            intro hb2
            rw [hb2] at hBp
            simp [List.isEmpty] at hBp
          simp at hlen
          exact hBne (List.eq_nil_of_length_eq_zero hlen.symm)
        rw [pwEnd_ne hmne false, wordC_lows_last hlm] at hs
        have ht := ih hs
        rw [hBp.2.2.1] at ht
        exact occG_mono hAp.2.1 ht

theorem weakStep_eq_pos {acc : Str × List (Str × Str)} {w : Str}
    (hc : occG w false acc.1 = true) :
    weakStep acc w = ((scanW w [] false acc.1).1, acc.2 ++ [(w, "(removed)".data)]) := by
  unfold weakStep
  rw [if_pos hc]

theorem weakStep_eq_neg {acc : Str × List (Str × Str)} {w : Str}
    (hc : ¬ occG w false acc.1 = true) :
    weakStep acc w = acc := by
  unfold weakStep
  rw [if_neg hc]

/-- An occurrence test for `A` is invariant under one deletion pass for a
statically non-crossing `B`. -/
theorem sdec_occ_eq {A B : Str} (hA : wShaped A = true) (hB : wShaped B = true)
    (hnc : noCross A B = true) {pw : Bool} {s t : Str} (hsd : SDec B [] pw s t) :
    occG A pw t = occG A pw s := by
  cases ho : occG A pw s
  · exact sdec_pres hA hB (Or.inl rfl) hsd ho
  · exact sdec_keep hA hB hnc hsd ho

/-- An absent pattern stays absent through one weak-word step. -/
theorem weakStep_abs {A w : Str} (hA : wShaped A = true) (hw : wShaped w = true)
    (acc : Str × List (Str × Str)) (h : occG A false acc.1 = false) :
    occG A false (weakStep acc w).1 = false := by
  by_cases hc : occG w false acc.1 = true
  · rw [weakStep_eq_pos hc]
    exact sdec_pres hA hw (Or.inl rfl)
      (scanW_sdec w [] acc.1.length acc.1 (le_refl _) false) h
  · rw [weakStep_eq_neg hc]
    exact h

/-- An absent pattern stays absent through the whole fold. -/
theorem weak_fold_abs {A : Str} (hA : wShaped A = true) :
    ∀ (l : List Str) (acc : Str × List (Str × Str)),
      l.all wShaped = true → occG A false acc.1 = false →
      occG A false (l.foldl weakStep acc).1 = false := by
  intro l
  induction l with
  | nil => intro acc _ h; exact h
  | cons w ws ih =>
    intro acc hall h
    rw [List.all_cons, Bool.and_eq_true] at hall
    rw [List.foldl_cons]
    exact ih _ hall.2 (weakStep_abs hA hall.1 acc h)

/-- Pairwise static exclusion along the list order: no later word
crosses an earlier word's deleted match. -/
def pairOK : List Str → Bool
  | [] => true
  | w :: ws => ws.all (fun u => noCross u w) && pairOK ws

/-- The weak-word fold records exactly one `(word, "(removed)")`
enhancement per occurring lexicon entry, in list order, and leaves a
text free of every lexicon entry. -/
theorem weak_fold_spec :
    ∀ (l : List Str) (s : Str) (acc2 : List (Str × Str)),
      l.all wShaped = true → pairOK l = true →
      (l.foldl weakStep (s, acc2)).2 =
        acc2 ++ (l.filter (fun w => occG w false s)).map
          (fun w => (w, "(removed)".data)) ∧
      ∀ w ∈ l, occG w false (l.foldl weakStep (s, acc2)).1 = false := by
  intro l
  induction l with
  | nil =>
    intro s acc2 _ _
    refine ⟨by simp, ?_⟩
    intro w hw
    simp at hw
  | cons w ws ih =>
    intro s acc2 hall hpo
    rw [List.all_cons, Bool.and_eq_true] at hall
    have hpo' : (ws.all (fun u => noCross u w) && pairOK ws) = true := hpo
    rw [Bool.and_eq_true] at hpo'
    rw [List.foldl_cons]
    by_cases hc : occG w false s = true
    · rw [weakStep_eq_pos hc]
      have hsd : SDec w [] false s (scanW w [] false s).1 :=
        scanW_sdec w [] s.length s (le_refl _) false
      have hfe : ws.filter (fun u => occG u false (scanW w [] false s).1) =
          ws.filter (fun u => occG u false s) := by
        apply List.filter_congr
        intro u hu
        exact sdec_occ_eq (List.all_eq_true.mp hall.2 u hu) hall.1
          (List.all_eq_true.mp hpo'.1 u hu) hsd
      obtain ⟨ih1, ih2⟩ := ih (scanW w [] false s).1 (acc2 ++ [(w, "(removed)".data)])
        hall.2 hpo'.2
      refine ⟨?_, ?_⟩
      · rw [ih1, hfe,
          show (w :: ws).filter (fun x => occG x false s) =
            w :: ws.filter (fun x => occG x false s) from List.filter_cons_of_pos hc,
          List.map_cons, List.append_assoc]
        rfl
      · intro u hu
        rcases List.mem_cons.mp hu with rfl | hu
        · exact weak_fold_abs hall.1 ws _ hall.2
            (sdec_elim hall.1 (Or.inl rfl) hsd)
        · exact ih2 u hu
    · rw [weakStep_eq_neg hc]
      obtain ⟨ih1, ih2⟩ := ih s acc2 hall.2 hpo'.2
      refine ⟨?_, ?_⟩
      · rw [ih1,
          show (w :: ws).filter (fun x => occG x false s) =
            ws.filter (fun x => occG x false s) from
              List.filter_cons_of_neg (by simpa using hc)]
      · intro u hu
        rcases List.mem_cons.mp hu with rfl | hu
        · exact weak_fold_abs hall.1 ws _ hall.2
            (Bool.not_eq_true _ ▸ Bool.of_not_eq_true hc)
        · exact ih2 u hu

theorem cliche_note {p : Str × Str} {e : Str} (hp : p ∈ cliche_enhancements e) :
    p.2 = "Consider replacing with more specific achievements".data := by
  unfold cliche_enhancements at hp
  obtain ⟨c, _, rfl⟩ := List.mem_map.mp hp
  rfl

theorem bullet_note {p : Str × Str} {pick : List Str → Str} {e : Str}
    (hp : p ∈ bullet_enhancements pick e) : p.2.headD ' ' = 'C' := by
  unfold bullet_enhancements at hp
  obtain ⟨L, hL, hpL⟩ := List.mem_flatten.mp hp
  obtain ⟨line, _, rfl⟩ := List.mem_map.mp hL
  unfold bulletSugg at hpL
  by_cases h1 : isBulletLine line = true
  · rw [if_pos h1] at hpL
    dsimp only at hpL
    by_cases h2 : ¬ (splitWs (bulletContent line)).isEmpty = true ∧
        ¬ startsWithActionVerb (bulletContent line) = true
    · rw [if_pos h2] at hpL
      rcases List.mem_singleton.mp hpL with rfl
      rfl
    · rw [if_neg h2] at hpL
      simp at hpL
  · rw [if_neg h1] at hpL
    simp at hpL

set_option maxHeartbeats 4000000 in
theorem weak_words_shaped : WEAK_WORDS.all wShaped = true := by decide

set_option maxHeartbeats 64000000 in
theorem weak_words_pairOK : pairOK WEAK_WORDS = true := by decide

theorem weak_words_nodup : WEAK_WORDS.Nodup := by decide

/-- The weak-word pass on a whole text: its enhancement list is exactly
one `(word, "(removed)")` per occurring lexicon entry, in lexicon order,
and its output text contains no lexicon entry as a CI whole word. -/
theorem enhance_weak_spec (text : Str) :
    (enhance_weak text).2 =
      (WEAK_WORDS.filter (fun w => occG w false text)).map
        (fun w => (w, "(removed)".data)) ∧
    ∀ w ∈ WEAK_WORDS, occG w false (enhance_weak text).1 = false := by
  have h := weak_fold_spec WEAK_WORDS text [] weak_words_shaped weak_words_pairOK
  rw [List.nil_append] at h
  exact h

theorem enhance_text_snd (pick : List Str → Str) (text : Str) :
    (enhance_text pick text).2 =
      (enhance_weak text).2 ++ cliche_enhancements (enhance_weak text).1 ++
        bullet_enhancements pick (enhance_weak text).1 := by
  unfold enhance_text
  dsimp only

theorem enhance_text_fst (pick : List Str → Str) (text : Str) :
    (enhance_text pick text).1 = (enhance_weak text).1 := by
  unfold enhance_text
  dsimp only

theorem count_map_pair (note w : Str) :
    ∀ l : List Str, (l.map (fun x => (x, note))).count (w, note) = l.count w := by
  intro l
  induction l with
  | nil => rfl
  | cons a as ih =>
    rw [List.map_cons, List.count_cons, List.count_cons, ih]
    congr 1
    simp

theorem count_nodup_one {w : Str} :
    ∀ {l : List Str}, l.Nodup → w ∈ l → l.count w = 1 := by
  intro l
  induction l with
  | nil => intro _ h; simp at h
  | cons a as ih =>
    intro hnd hm
    rw [List.nodup_cons] at hnd
    rw [List.count_cons]
    rcases List.mem_cons.mp hm with rfl | hm
    · rw [List.count_eq_zero.mpr hnd.1]
      simp
    · have hne : (a == w) = false := by
        rw [beq_eq_false_iff_ne]
        intro he
        rw [he] at hnd
        exact hnd.1 hm
      rw [hne, ih hnd.2 hm]
      simp

/-- C4: for every text and every word in the weak-word lexicon, if the
word occurs as a case-insensitive whole word in the text then the
enhancer's returned text contains no such occurrence and the enhancement
list contains exactly one `(word, "(removed)")` pair for that lexicon
entry, regardless of the number of occurrences; a non-occurring weak
word yields no such pair.  (`pick` models `random.choice`; it affects
only the action-verb suggestions, whose notes never equal
`"(removed)"`.) -/
theorem c4_weak_word_removal (pick : List Str → Str) (text w : Str)
    (hw : w ∈ WEAK_WORDS) :
    ((enhance_text pick text).2.count (w, "(removed)".data) =
      if occG w false text then 1 else 0) ∧
    occG w false (enhance_text pick text).1 = false := by
  obtain ⟨h1, h2⟩ := enhance_weak_spec text
  constructor
  · rw [enhance_text_snd, List.count_append, List.count_append]
    have hcl : (cliche_enhancements (enhance_weak text).1).count
        (w, "(removed)".data) = 0 := by
      rw [List.count_eq_zero]
      intro hmem
      have hx : ("(removed)".data : Str) =
          "Consider replacing with more specific achievements".data :=
        cliche_note hmem
      exact absurd hx (by decide)
    have hbl : (bullet_enhancements pick (enhance_weak text).1).count
        (w, "(removed)".data) = 0 := by
      rw [List.count_eq_zero]
      intro hmem
      have hx : ("(removed)".data : Str).headD ' ' = 'C' := bullet_note hmem
      exact absurd hx (by decide)
    rw [hcl, hbl, h1]
    by_cases hocc : occG w false text = true
    · rw [if_pos hocc]
      have hcm := count_map_pair "(removed)".data w
        (WEAK_WORDS.filter (fun x => occG x false text))
      have hone : (WEAK_WORDS.filter (fun x => occG x false text)).count w = 1 :=
        count_nodup_one (weak_words_nodup.filter _)
          (List.mem_filter.mpr ⟨hw, hocc⟩)
      exact hcm.trans hone
    · rw [if_neg hocc]
      have hz : ((WEAK_WORDS.filter (fun x => occG x false text)).map
          (fun x : Str => (x, "(removed)".data))).count (w, "(removed)".data) = 0 := by
        rw [List.count_eq_zero]
        intro hmem
        obtain ⟨u, hu, hpe⟩ := List.mem_map.mp hmem
        have hue : u = w := congrArg Prod.fst hpe
        subst hue
        exact hocc (List.mem_filter.mp hu).2
      exact hz
  · rw [enhance_text_fst]
    exact h2 w hw

theorem c4_weak_word_removal_witness :
    ((enhance_text (fun vs => vs.headD [])
        "I was really happy to just help".data).2.count
          ("really".data, "(removed)".data) =
      if occG "really".data false "I was really happy to just help".data
        then 1 else 0) ∧
    occG "really".data false
      (enhance_text (fun vs => vs.headD [])
        "I was really happy to just help".data).1 = false :=
  c4_weak_word_removal (fun vs => vs.headD [])
    "I was really happy to just help".data "really".data (by decide)
